import Mathlib

/-!
Verification of the text-extraction core of `db_tickets_to_csv.py`.

Python strings are modelled as `List Char` (one entry per Unicode code
point, matching Python's string model).  Character classification
functions (`str.isspace`, `str.isalpha`, `str.lower`, regex `\d`, `\w`)
are modelled on the ASCII and Latin-1 ranges, which cover every character
class decision the program's patterns can meet on German ticket text;
outside that range the model treats characters as plain symbols.

Each regular expression of the source is embedded as a hand-rolled
matcher with the exact leftmost-match / ordered-alternation / greedy-
with-backtracking semantics of Python's `re` module, specialised to the
fixed pattern.
-/

namespace DBTickets

/-- Python strings as lists of code points. -/
abbrev Str : Type := List Char

/-- Python whitespace (`str.isspace`, regex `\s` in Unicode mode),
restricted to ASCII control whitespace, NBSP, NEL and the common
Unicode space code points. -/
def isSpacePy (c : Char) : Bool :=
  (9 ≤ c.val && c.val ≤ 13) || c.val = 28 || c.val = 29 || c.val = 30 ||
  c.val = 31 || c.val = 32 || c.val = 133 || c.val = 160 ||
  c.val = 0x1680 || (0x2000 ≤ c.val && c.val ≤ 0x200A) ||
  c.val = 0x2028 || c.val = 0x2029 || c.val = 0x202F || c.val = 0x205F ||
  c.val = 0x3000

/-- Python `str.lower`, restricted to ASCII and Latin-1: `A`–`Z` and
`À`–`Þ` (except `×`) shift down by 32; everything else is unchanged. -/
def pyLowerChar (c : Char) : Char :=
  if 65 ≤ c.val && c.val ≤ 90 then Char.ofNat (c.toNat + 32)
  else if 192 ≤ c.val && c.val ≤ 222 && c.val ≠ 215 then Char.ofNat (c.toNat + 32)
  else c

/-- Python `str.isalpha`, restricted to ASCII and Latin-1 letters. -/
def pyIsAlphaChar (c : Char) : Bool :=
  (65 ≤ c.val && c.val ≤ 90) || (97 ≤ c.val && c.val ≤ 122) ||
  (192 ≤ c.val && c.val ≤ 255 && c.val ≠ 215 && c.val ≠ 247)

/-- Regex `\d`, restricted to the ASCII digits the patterns meet. -/
def isDigitChar (c : Char) : Bool :=
  48 ≤ c.toNat && c.toNat ≤ 57

/-- Numeric value of an ASCII digit. -/
def digitVal (c : Char) : Nat := c.toNat - 48

/-- Regex `\w` (word character for `\b`): letter, digit or underscore. -/
def isWordChar (c : Char) : Bool :=
  pyIsAlphaChar c || isDigitChar c || c = '_'

/-- Python `str.lstrip()`. -/
def lstrip : Str → Str
  | [] => []
  | c :: cs => if isSpacePy c then lstrip cs else c :: cs

/-- Python `str.rstrip()`. -/
def rstrip : Str → Str
  | [] => []
  | c :: cs =>
    let r := rstrip cs
    if r = [] then (if isSpacePy c then [] else [c]) else c :: r

/-- Python `str.strip()`. -/
def strip (s : Str) : Str := rstrip (lstrip s)

/-- Python `str.split()` with no argument: split on whitespace runs,
dropping empty fields.  `acc` holds the characters of the current token
in reverse. -/
def pySplitAux : Str → Str → List Str
  | [], acc => if acc = [] then [] else [acc.reverse]
  | c :: cs, acc =>
    if isSpacePy c then
      (if acc = [] then pySplitAux cs [] else acc.reverse :: pySplitAux cs [])
    else pySplitAux cs (c :: acc)

def pySplitWs (s : Str) : List Str := pySplitAux s []

/-- `" ".join(l)`. -/
def joinSp : List Str → Str
  | [] => []
  | [a] => a
  | a :: b :: rest => a ++ ' ' :: joinSp (b :: rest)

/-- `needle.isPrefixOf hay` via plain char equality. -/
def hasPre : Str → Str → Bool
  | [], _ => true
  | _ :: _, [] => false
  | a :: as, b :: bs => a = b && hasPre as bs

/-- Python `needle in hay` (substring containment). -/
def containsSub (hay needle : Str) : Bool :=
  if hasPre needle hay then true
  else
    match hay with
    | [] => false
    | _ :: t => containsSub t needle

/-- Python `s.split(sep, 1)[0]` for non-empty `sep`: the prefix of `s`
before the first occurrence of `sep`, or all of `s` if none occurs. -/
def splitBefore (sep : Str) : Str → Str
  | [] => []
  | c :: t => if hasPre sep (c :: t) then [] else c :: splitBefore sep t

/-! ### Route resolver (`split_start_ziel`, `parse_route`) -/

def litViaColonSp : Str := (" Via:").toList

def litViaSp : Str := (" Via").toList

def litViaColon : Str := ("Via:").toList

/-- The via-clause truncation of `split_start_ziel` (line 87 of the
source): `route_part.split(" Via:", 1)[0].split(" Via", 1)[0]
.split("Via:", 1)[0].strip()`. -/
def truncVia (s : Str) : Str :=
  strip (splitBefore litViaColon (splitBefore litViaSp (splitBefore litViaColonSp s)))

/-- The separator characters of `RE_ROUTE_SPLIT_SEP`.  The pattern is
`\s*(?:-|–|—|→|->|›|>|<)\s*`; ordered alternation makes the two-character
branch `->` unreachable, because `-` is tried first and always matches at
any position where `->` would. -/
def isSepChar (c : Char) : Bool :=
  c = '-' || c = '–' || c = '—' || c = '→' || c = '›' || c = '>' || c = '<'

/-- One attempt of `RE_ROUTE_SPLIT_SEP` at the current position:
`\s*` (greedy; equivalent to maximal munch, as every separator is
non-whitespace) then one separator character then `\s*`.  Returns the
remainder after the whole match. -/
def sepMatchAt (s : Str) : Option Str :=
  match s.dropWhile isSpacePy with
  | [] => none
  | c :: r => if isSepChar c then some (r.dropWhile isSpacePy) else none

/-- `RE_ROUTE_SPLIT_SEP.split(s, maxsplit=1)`: leftmost match of the
separator pattern; `some (before, after)` when a match exists. -/
def splitSepOnce : Str → Option (Str × Str)
  | [] => none
  | c :: t =>
    match sepMatchAt (c :: t) with
    | some rest => some ([], rest)
    | none =>
      match splitSepOnce t with
      | some p => some (c :: p.1, p.2)
      | none => none

/-- The five endings of `score_ending`. -/
def stationEndings : List Str :=
  [("hbf").toList, ("hauptbahnhof").toList, ("+city").toList,
   ("city").toList, ("bf").toList]

/-- `score_ending` (lines 77–80): +3 when the lowercased, stripped text
ends with a typical station suffix. -/
def score_ending (s : Str) : Int :=
  let sLow := strip (s.map pyLowerChar)
  if stationEndings.any (fun e => e.isSuffixOf sLow) then 3 else 0

/-- The candidate score of the heuristic split (lines 109–117). -/
def candScore (a b : Str) : Int :=
  score_ending a + score_ending b
    + (if a.any pyIsAlphaChar then 1 else 0)
    + (if b.any pyIsAlphaChar then 1 else 0)
    + (if 3 ≤ a.length ∧ a.length ≤ 80 then 1 else 0)
    + (if 3 ≤ b.length ∧ b.length ≤ 80 then 1 else 0)
    + (if (':') ∈ a ∨ (':') ∈ b then -3 else 0)

/-- One iteration of the best-candidate loop (lines 102–121). -/
def heurStep (tokens : List Str) (st : Option (Str × Str) × Int) (k : Nat) :
    Option (Str × Str) × Int :=
  let a := strip (joinSp (tokens.take k))
  let b := strip (joinSp (tokens.drop k))
  if a = [] ∨ b = [] then st
  else
    let sc := candScore a b
    if st.2 < sc then (some (a, b), sc) else st

/-- The whole loop `for k in range(1, len(tokens))` starting from
`best = None`, `best_score = -10`. -/
def heurFold (tokens : List Str) : Option (Str × Str) × Int :=
  (List.range' 1 (tokens.length - 1)).foldl (heurStep tokens) (none, -10)

/-- Steps 2–4 of `split_start_ziel` on the already stripped-and-truncated
route text. -/
def splitCore (rp : Str) : Option Str × Option Str :=
  match splitSepOnce rp with
  | some p =>
    if strip p.1 ≠ [] ∧ strip p.2 ≠ [] then (some (strip p.1), some (strip p.2))
    else splitHeur rp
  | none => splitHeur rp
where
  splitHeur (rp : Str) : Option Str × Option Str :=
    let tokens := pySplitWs rp
    if tokens.length < 2 then ((if rp = [] then none else some rp), none)
    else
      match (heurFold tokens).1 with
      | some ab => (some ab.1, some ab.2)
      | none => (some rp, none)

/-- `split_start_ziel` (lines 83–123). -/
def split_start_ziel (rp0 : Str) : Option Str × Option Str :=
  splitCore (truncVia (strip rp0))

/-! #### `RE_ROUTE_LINE` — `^(Einfache\s+Fahrt|Hinfahrt)\s+(.+?)\s*$`
with `IGNORECASE | MULTILINE`. -/

/-- Case-insensitive character comparison (both patterns and text are
lowered; `IGNORECASE` on Latin-1 is plain lowercasing). -/
def ciEq (a b : Char) : Bool := pyLowerChar a = pyLowerChar b

/-- Case-insensitively match a literal at the head; returns the consumed
slice of the subject (original case) and the remainder. -/
def matchLitC : Str → Str → Option (Str × Str)
  | [], s => some ([], s)
  | _ :: _, [] => none
  | l :: ls, c :: cs =>
    if ciEq l c then
      match matchLitC ls cs with
      | some p => some (c :: p.1, p.2)
      | none => none
    else none

/-- Regex `\s+`: a non-empty maximal whitespace run (maximal munch is
equivalent to greedy-with-backtracking whenever a non-whitespace literal
follows). -/
def wsPlus (s : Str) : Option (Str × Str) :=
  match s with
  | [] => none
  | c :: cs =>
    if isSpacePy c then
      some (c :: cs.takeWhile isSpacePy, cs.dropWhile isSpacePy)
    else none

/-- Group 1 of `RE_ROUTE_LINE`: `Einfache\s+Fahrt|Hinfahrt` (ordered
alternation; the branches start with different letters, so order is
immaterial here).  Returns the consumed slice and the remainder. -/
def matchKind (s : Str) : Option (Str × Str) :=
  match matchLitC (("einfache").toList) s with
  | some p1 =>
    match wsPlus p1.2 with
    | some pw =>
      match matchLitC (("fahrt").toList) pw.2 with
      | some p2 => some (p1.1 ++ pw.1 ++ p2.1, p2.2)
      | none => matchLitC (("hinfahrt").toList) s
    | none => matchLitC (("hinfahrt").toList) s
  | none => matchLitC (("hinfahrt").toList) s

/-- Acceptance of `\s*$` (`MULTILINE`): some whitespace prefix reaches
the end of the string or a position just before a newline. -/
def tailOk : Str → Bool
  | [] => true
  | c :: cs => if c = '\n' then true else if isSpacePy c then tailOk cs else false

/-- The lazy group `(.+?)` followed by `\s*$`: the shortest non-empty
newline-free prefix whose remainder satisfies `\s*$`. -/
def lazyG2 (acc : Str) : Str → Option Str
  | [] => none
  | c :: cs =>
    if c = '\n' then none
    else if tailOk cs then some (acc ++ [c])
    else lazyG2 (acc ++ [c]) cs

/-- `\s+(.+?)\s*$` after the kind: the leading `\s+` is greedy, so the
longest whitespace prefix is tried first, backtracking one character at
a time (a freed whitespace character is then consumed by `.+?`). -/
def tryWsLen (r : Str) : Nat → Option Str
  | 0 => none
  | Nat.succ k =>
    match lazyG2 [] (r.drop (k + 1)) with
    | some g => some g
    | none => tryWsLen r k

def matchAfterKind (r : Str) : Option Str :=
  tryWsLen r (r.takeWhile isSpacePy).length

/-- A full attempt of `RE_ROUTE_LINE` at a line start: `some (g1, g2)`
with the two captured groups. -/
def matchRouteAt (s : Str) : Option (Str × Str) :=
  match matchKind s with
  | none => none
  | some p =>
    match matchAfterKind p.2 with
    | none => none
    | some g2 => some (p.1, g2)

/-- `RE_ROUTE_LINE.search`: try each position in order; `^` makes the
attempt fail except at line starts, so only those are tried.  The flag
records whether the current position is a line start (offset 0, or the
previous character was a newline). -/
def searchRouteAux : Bool → Str → Option (Str × Str)
  | atStart, [] => if atStart then matchRouteAt [] else none
  | atStart, c :: cs =>
    if atStart then
      match matchRouteAt (c :: cs) with
      | some g => some g
      | none => searchRouteAux (c = '\n') cs
    else searchRouteAux (c = '\n') cs

def searchRoute (s : Str) : Option (Str × Str) := searchRouteAux true s

/-- `parse_route` (lines 126–136). -/
def parse_route (text : Str) : Option Str × Option Str × Option Str :=
  match searchRoute text with
  | none => (none, none, none)
  | some g =>
    let kind := strip g.1
    let rp := strip g.2
    let sz := split_start_ziel rp
    (some kind, sz.1, sz.2)

/-! ### `to_iso_date` — `datetime.strptime(d, "%d.%m.%Y").strftime("%Y-%m-%d")`

CPython's `_strptime` compiles `%d` to `3[01]|[12]\d|0[1-9]|[1-9]`,
`%m` to `1[0-2]|0[1-9]|[1-9]` and `%Y` to `\d\d\d\d`, anchored at both
ends, then validates the triple through `datetime.date` (which raises
unless `1 ≤ year ≤ 9999` and the day exists in the month).  `strftime`
on glibc renders `%Y` without padding and `%m`/`%d` zero-padded to two
digits. -/

/-- Decimal digits of `n`, no padding, via a structural fuel argument
(`n` itself bounds the number of divisions). -/
def natDigitsAux : Nat → Nat → Str
  | 0, _ => []
  | Nat.succ f, n =>
    if n < 10 then [Char.ofNat (48 + n)]
    else natDigitsAux f (n / 10) ++ [Char.ofNat (48 + n % 10)]

def natDigits (n : Nat) : Str := natDigitsAux (n + 1) n

/-- `%m` / `%d` rendering: zero-padded to two digits. -/
def pad2 (n : Nat) : Str :=
  if n < 10 then '0' :: natDigits n else natDigits n

/-- `\d\d\d\d`, anchored at the end of the string. -/
def parseY : Str → Option Nat
  | [a, b, c, d] =>
    if isDigitChar a ∧ isDigitChar b ∧ isDigitChar c ∧ isDigitChar d then
      some (digitVal a * 1000 + digitVal b * 100 + digitVal c * 10 + digitVal d)
    else none
  | _ => none

/-- The two-digit month alternatives `1[0-2]|0[1-9]` (two digits with
value 1–12), followed by `\.` and the year. -/
def parseMY2 : Str → Option (Nat × Nat)
  | m1 :: m2 :: '.' :: ys =>
    if isDigitChar m1 ∧ isDigitChar m2 ∧ 1 ≤ digitVal m1 * 10 + digitVal m2 ∧
       digitVal m1 * 10 + digitVal m2 ≤ 12 then
      (parseY ys).map (fun y => (digitVal m1 * 10 + digitVal m2, y))
    else none
  | _ => none

/-- The one-digit month alternative `[1-9]`, followed by `\.` and the
year. -/
def parseMY1 : Str → Option (Nat × Nat)
  | m1 :: '.' :: ys =>
    if isDigitChar m1 ∧ 1 ≤ digitVal m1 then
      (parseY ys).map (fun y => (digitVal m1, y))
    else none
  | _ => none

/-- `(1[0-2]|0[1-9]|[1-9])\.(\d{4})`, with the two-digit alternatives
tried first and full backtracking to the one-digit form. -/
def parseMY (s : Str) : Option (Nat × Nat) :=
  (parseMY2 s).orElse (fun _ => parseMY1 s)

/-- The two-digit day alternatives `3[01]|[12]\d|0[1-9]` (two digits
with value 1–31), followed by `\.` and month-and-year. -/
def parseDMY2 : Str → Option (Nat × Nat × Nat)
  | d1 :: d2 :: '.' :: ms =>
    if isDigitChar d1 ∧ isDigitChar d2 ∧ 1 ≤ digitVal d1 * 10 + digitVal d2 ∧
       digitVal d1 * 10 + digitVal d2 ≤ 31 then
      (parseMY ms).map (fun my => (digitVal d1 * 10 + digitVal d2, my))
    else none
  | _ => none

/-- The one-digit day alternative `[1-9]`, followed by `\.` and
month-and-year. -/
def parseDMY1 : Str → Option (Nat × Nat × Nat)
  | d1 :: '.' :: ms =>
    if isDigitChar d1 ∧ 1 ≤ digitVal d1 then
      (parseMY ms).map (fun my => (digitVal d1, my))
    else none
  | _ => none

/-- The whole `%d.%m.%Y` grammar: day, then dot, then month-and-year,
with the regex's ordered alternation and backtracking. -/
def parseDMY (s : Str) : Option (Nat × Nat × Nat) :=
  (parseDMY2 s).orElse (fun _ => parseDMY1 s)

def isLeap (y : Nat) : Bool :=
  y % 4 = 0 && (y % 100 ≠ 0 || y % 400 = 0)

def daysInMonth (y m : Nat) : Nat :=
  if m = 2 then (if isLeap y then 29 else 28)
  else if m = 4 ∨ m = 6 ∨ m = 9 ∨ m = 11 then 30 else 31

/-- `to_iso_date` (lines 45–49): convert on success, pass the input
through unchanged when parsing or date validation fails. -/
def to_iso_date (s : Str) : Str :=
  match parseDMY s with
  | none => s
  | some dmy =>
    if 1 ≤ dmy.2.2 ∧ dmy.1 ≤ daysInMonth dmy.2.2 dmy.2.1 then
      natDigits dmy.2.2 ++ '-' :: (pad2 dmy.2.1 ++ '-' :: pad2 dmy.1)
    else s

/-! ### Date and price matchers -/

/-- Case-insensitive literal at the head of the subject; returns the
remainder. -/
def matchLit : Str → Str → Option Str
  | [], s => some s
  | _ :: _, [] => none
  | l :: ls, c :: cs => if ciEq l c then matchLit ls cs else none

/-- `\d{2}\.\d{2}\.\d{4}`: the captured ten characters and the
remainder. -/
def matchDate : Str → Option (Str × Str)
  | a :: b :: c :: d :: e :: f :: g :: h :: i :: j :: rest =>
    if isDigitChar a ∧ isDigitChar b ∧ c = '.' ∧ isDigitChar d ∧ isDigitChar e ∧
       f = '.' ∧ isDigitChar g ∧ isDigitChar h ∧ isDigitChar i ∧ isDigitChar j then
      some ([a, b, c, d, e, f, g, h, i, j], rest)
    else none
  | _ => none

/-- `RE_DATE_FAHRTANTRITT` at one position:
`Fahrtantritt\s+am\s+(\d{2}\.\d{2}\.\d{4})`, `IGNORECASE`. -/
def fahrtantrittAt (s : Str) : Option Str :=
  match matchLit (("fahrtantritt").toList) s with
  | none => none
  | some r1 =>
    match wsPlus r1 with
    | none => none
    | some pw =>
      match matchLit (("am").toList) pw.2 with
      | none => none
      | some r2 =>
        match wsPlus r2 with
        | none => none
        | some pw2 => (matchDate pw2.2).map Prod.fst

/-- `RE_DATE_GUELTIGKEIT` at one position:
`Gültigkeit:\s*(\d{2}\.\d{2}\.\d{4})\s*00:00\s*Uhr`, `IGNORECASE`. -/
def gueltigkeitAt (s : Str) : Option Str :=
  match matchLit (("gültigkeit:").toList) s with
  | none => none
  | some r1 =>
    match matchDate (r1.dropWhile isSpacePy) with
    | none => none
    | some p =>
      match matchLit (("00:00").toList) (p.2.dropWhile isSpacePy) with
      | none => none
      | some r2 =>
        match matchLit (("uhr").toList) (r2.dropWhile isSpacePy) with
        | none => none
        | some _ => some p.1

/-- Generic `re.search` position scan: try every start position from the
left (including the end-of-string position). -/
def scanFirst (f : Str → Option α) : Str → Option α
  | [] => f []
  | c :: cs =>
    match f (c :: cs) with
    | some a => some a
    | none => scanFirst f cs

/-! #### `RE_PRICE` — `Gesamtpreis\s+(\d{1,3}(?:\.\d{3})*,\d{2})\s*€`,
`IGNORECASE`. -/

/-- `,\d{2}` closing the amount. -/
def commaTail : Str → Option (Str × Str)
  | ',' :: a :: b :: rest =>
    if isDigitChar a ∧ isDigitChar b then some ([',', a, b], rest) else none
  | _ => none

/-- `(?:\.\d{3})*,\d{2}`: greedy star with backtracking — try one more
`.\d{3}` group first, fall back to closing with `,\d{2}` here. -/
def groupsTail : Str → Option (Str × Str)
  | '.' :: a :: b :: c :: rest =>
    if isDigitChar a ∧ isDigitChar b ∧ isDigitChar c then
      match groupsTail rest with
      | some p => some ('.' :: a :: b :: c :: p.1, p.2)
      | none => commaTail ('.' :: a :: b :: c :: rest)
    else commaTail ('.' :: a :: b :: c :: rest)
  | s => commaTail s

/-- `\d{1,3}` (greedy, trying 3, 2, 1 digits) followed by the group
star and the comma tail. -/
def tryDigits (s : Str) : Nat → Option (Str × Str)
  | 0 => none
  | Nat.succ k =>
    let pre := s.take (k + 1)
    if pre.length = k + 1 ∧ pre.all isDigitChar then
      match groupsTail (s.drop (k + 1)) with
      | some p => some (pre ++ p.1, p.2)
      | none => tryDigits s k
    else tryDigits s k

/-- The captured amount `\d{1,3}(?:\.\d{3})*,\d{2}` and the remainder. -/
def matchAmount (s : Str) : Option (Str × Str) := tryDigits s 3

/-- `RE_PRICE` at one position. -/
def priceAt (s : Str) : Option Str :=
  match matchLit (("gesamtpreis").toList) s with
  | none => none
  | some r1 =>
    match wsPlus r1 with
    | none => none
    | some pw =>
      match matchAmount pw.2 with
      | none => none
      | some p =>
        match p.2.dropWhile isSpacePy with
        | c :: _ => if c = '€' then some p.1 else none
        | [] => none

/-- `parse_price` (lines 72–74). -/
def parse_price (text : Str) : Option Str := scanFirst priceAt text

/-! #### `RE_DATE_AM_ANY` — `\bam\s+(\d{2}\.\d{2}\.\d{4})\b` with the
booking-date guard of `parse_date`. -/

/-- `am\s+(\d{2}\.\d{2}\.\d{4})\b` at the current position (the leading
`\b` is checked by the caller): capture and remainder after the match. -/
def amCore (s : Str) : Option (Str × Str) :=
  match matchLit (("am").toList) s with
  | none => none
  | some r1 =>
    match wsPlus r1 with
    | none => none
    | some pw =>
      match matchDate pw.2 with
      | none => none
      | some p =>
        match p.2 with
        | [] => some (p.1, [])
        | c :: _ => if isWordChar c then none else some (p.1, p.2)

/-- `\b` at absolute position `i` of `full`. -/
def wordBoundaryAt (full : Str) (i : Nat) : Bool :=
  decide (i = 0) || !(isWordChar (full.getD (i - 1) ' '))

/-- The guard of lines 64–66: `"gebucht" in text[max(0, start-30):start]
.lower()`. -/
def gebuchtWindow (full : Str) (i : Nat) : Bool :=
  containsSub (((full.take i).drop (i - 30)).map pyLowerChar) (("gebucht").toList)

theorem matchLit_len {l s r : Str} (h : matchLit l s = some r) :
    r.length + l.length = s.length := by
  induction l generalizing s with
  | nil => simp [matchLit] at h; simp [h]
  | cons x xs ih =>
    match s with
    | [] => simp [matchLit] at h
    | c :: cs =>
      simp only [matchLit] at h
      by_cases hc : ciEq x c
      · simp only [hc, if_true] at h
        have := ih h
        simp only [List.length_cons]
        omega
      · simp [hc] at h

theorem dropWhile_len_le {α : Type} (p : α → Bool) :
    ∀ s : List α, (s.dropWhile p).length ≤ s.length := by
  intro s
  induction s with
  | nil => simp
  | cons c cs ih =>
    simp only [List.dropWhile_cons]
    by_cases h : p c
    · simp only [h, if_true, List.length_cons]
      omega
    · simp [h]

theorem wsPlus_len {s : Str} {p : Str × Str} (h : wsPlus s = some p) :
    p.2.length < s.length := by
  match s with
  | [] => simp [wsPlus] at h
  | c :: cs =>
    simp only [wsPlus] at h
    by_cases hc : isSpacePy c
    · simp only [hc, if_true, Option.some.injEq] at h
      have hlen : (cs.dropWhile isSpacePy).length ≤ cs.length :=
        dropWhile_len_le _ _
      rw [← h]
      simp only [List.length_cons]
      omega
    · simp [hc] at h

theorem matchDate_len {s : Str} {p : Str × Str} (h : matchDate s = some p) :
    p.2.length + 10 = s.length := by
  match s with
  | a :: b :: c :: d :: e :: f :: g :: h2 :: i :: j :: rest =>
    simp only [matchDate] at h
    split at h
    · cases h
      simp
    · cases h
  | [] | [_] | [_,_] | [_,_,_] | [_,_,_,_] | [_,_,_,_,_] | [_,_,_,_,_,_]
  | [_,_,_,_,_,_,_] | [_,_,_,_,_,_,_,_] | [_,_,_,_,_,_,_,_,_] =>
    simp [matchDate] at h

theorem amCore_len {s : Str} {p : Str × Str} (h : amCore s = some p) :
    p.2.length < s.length := by
  simp only [amCore] at h
  match h1 : matchLit (("am").toList) s with
  | none => simp only [h1] at h; exact Option.noConfusion h
  | some r1 =>
    simp only [h1] at h
    match h2 : wsPlus r1 with
    | none => simp only [h2] at h; exact Option.noConfusion h
    | some pw =>
      simp only [h2] at h
      match h3 : matchDate pw.2 with
      | none => simp only [h3] at h; exact Option.noConfusion h
      | some pd =>
        simp only [h3] at h
        have l1 := matchLit_len h1
        have l2 := wsPlus_len h2
        have l3 := matchDate_len h3
        match h4 : pd.2 with
        | [] =>
          simp only [h4, Option.some.injEq] at h
          rw [← h]
          simp only [List.length_nil]
          omega
        | c :: cs =>
          simp only [h4] at h
          by_cases hw : isWordChar c
          · simp [hw] at h
          · simp only [hw, Bool.false_eq_true, if_false, Option.some.injEq] at h
            rw [← h]
            rw [h4] at l3
            simp only [List.length_cons] at l3 ⊢
            omega

/-- `\b` at position `i` of `full` followed by `amCore` on the suffix. -/
def amTry (full : Str) (i : Nat) : Option (Str × Str) :=
  if wordBoundaryAt full i then amCore (full.drop i) else none

/-- The `finditer` loop of `parse_date` (lines 62–67) on the suffixes of
`full`: at each position try the anchored match (with `\b` on the left),
skip it when the 30-character window before it mentions `gebucht`
(continuing after the match end, as `finditer` yields non-overlapping
matches — expressed by the structural skip counter `k`, which ignores
the next `k` positions), and otherwise return the ISO-converted
capture. -/
def amLoopAux (full : Str) : Nat → Str → Option Str
  | _, [] => none
  | Nat.succ k, _ :: rest => amLoopAux full k rest
  | 0, c :: rest =>
    let i := full.length - (c :: rest).length
    match (if wordBoundaryAt full i then amCore (c :: rest) else none) with
    | some p =>
      if gebuchtWindow full i then amLoopAux full (rest.length - p.2.length) rest
      else some (to_iso_date p.1)
    | none => amLoopAux full 0 rest

def amLoop (full s : Str) : Option Str := amLoopAux full 0 s

/-- `parse_date` (lines 52–69). -/
def parse_date (text : Str) : Option Str :=
  match scanFirst fahrtantrittAt text with
  | some d => some (to_iso_date d)
  | none =>
    match scanFirst gueltigkeitAt text with
    | some d => some (to_iso_date d)
    | none => amLoop text text

/-! ### Record builder (`main`, lines 162–190) -/

/-- One output record (the CSV row).  A normal row has `fehler = none`
(the `Fehler` key is absent from its dict); an error row has every data
field `None` and `Fehler` set. -/
structure Row where
  datei : Str
  datum : Option Str
  preis : Option Str
  fahrtart : Option Str
  start : Option Str
  ziel : Option Str
  fehler : Option Str
deriving DecidableEq

/-- `os.path.basename`. -/
def basename (p : Str) : Str :=
  (p.reverse.takeWhile (fun c => c ≠ '/')).reverse

/-- The body of the per-document loop: the raw-text provider models
`extract_text_from_pdf` (it returns the normalized text or raises);
any exception becomes an error row, a success becomes a normal row. -/
def processDoc (provider : Str → Except Str Str) (p : Str) : Row :=
  match provider p with
  | Except.ok text =>
    { datei := basename p, datum := parse_date text, preis := parse_price text,
      fahrtart := (parse_route text).1, start := (parse_route text).2.1,
      ziel := (parse_route text).2.2, fehler := none }
  | Except.error e =>
    { datei := basename p, datum := none, preis := none, fahrtart := none,
      start := none, ziel := none, fehler := some e }

/-- Python string comparison: lexicographic by code point, with a
proper prefix ordered first. -/
def strLe : Str → Str → Bool
  | [], _ => true
  | _ :: _, [] => false
  | a :: as, b :: bs => if a = b then strLe as bs else decide (a < b)

/-- The loop over `sorted(iter_pdfs(...))`. -/
def buildRows (provider : Str → Except Str Str) (paths : List Str) : List Row :=
  paths.map (processDoc provider)

/-- `main` without I/O: sort the enumerated paths, process each. -/
def mainRows (paths : List Str) (provider : Str → Except Str Str) : List Row :=
  buildRows provider (paths.mergeSort strLe)

/-! ### Leftmost-match characterisation of the position scan -/

theorem scanFirst_first {α : Type} (f : Str → Option α) :
    ∀ (s : Str) (i : Nat) (a : α), f (s.drop i) = some a →
      (∀ j, j < i → f (s.drop j) = none) → scanFirst f s = some a := by
  intro s
  induction s with
  | nil =>
    intro i a hi _
    simp only [List.drop_nil] at hi
    simpa [scanFirst] using hi
  | cons c cs ih =>
    intro i a hi hj
    match i with
    | 0 =>
      simp only [List.drop_zero] at hi
      simp [scanFirst, hi]
    | Nat.succ i0 =>
      have h0 : f (c :: cs) = none := by
        have := hj 0 (Nat.succ_pos i0)
        simpa using this
      simp only [scanFirst, h0]
      exact ih i0 a (by simpa using hi) (fun j hjlt => by
        have := hj (j + 1) (Nat.succ_lt_succ hjlt)
        simpa using this)

theorem scanFirst_none {α : Type} (f : Str → Option α) :
    ∀ s : Str, (∀ j, j ≤ s.length → f (s.drop j) = none) → scanFirst f s = none := by
  intro s
  induction s with
  | nil =>
    intro h
    simpa [scanFirst] using h 0 (by simp)
  | cons c cs ih =>
    intro h
    have h0 : f (c :: cs) = none := by simpa using h 0 (by simp)
    simp only [scanFirst, h0]
    exact ih (fun j hj => by
      have := h (j + 1) (by simpa using Nat.succ_le_succ hj)
      simpa using this)

/-- C5: the price extractor returns, for the first position at which
`RE_PRICE` matches (`Gesamtpreis`, whitespace, an amount of the form
`D{1,3}(.DDD)*,DD`, optional whitespace, the currency symbol), the
captured amount string verbatim — currency symbol stripped, comma and
dots preserved — and returns null when the pattern matches nowhere.
For the text `"Gesamtpreis 129,90 €"` it returns `"129,90"`. -/
theorem c5_price_first_occurrence :
    (∀ (text : Str) (i : Nat) (c : Str),
        priceAt (text.drop i) = some c →
        (∀ j, j < i → priceAt (text.drop j) = none) →
        parse_price text = some c)
    ∧ (∀ text : Str,
        (∀ j, j ≤ text.length → priceAt (text.drop j) = none) →
        parse_price text = none)
    ∧ parse_price (("Gesamtpreis 129,90 €").toList) = some (("129,90").toList) := by
  refine ⟨?_, ?_, ?_⟩
  · intro text i c hi hj
    exact scanFirst_first priceAt text i c hi hj
  · intro text h
    exact scanFirst_none priceAt text h
  · decide

/-- Closed instantiation of `c5_price_first_occurrence`: the pattern
matches at position 4 of `"abc Gesamtpreis 7,50 € x"` and nowhere
earlier. -/
theorem c5_price_witness :
    parse_price (("abc Gesamtpreis 7,50 € x").toList) = some (("7,50").toList) :=
  c5_price_first_occurrence.1 (("abc Gesamtpreis 7,50 € x").toList) 4
    (("7,50").toList) (by decide) (by decide)

/-! ### Stepping lemmas for the `finditer` loop of `parse_date` -/

theorem matchLit_suffix {l s r : Str} (h : matchLit l s = some r) : r <:+ s := by
  induction l generalizing s with
  | nil =>
    simp only [matchLit, Option.some.injEq] at h
    exact h ▸ List.suffix_refl s
  | cons x xs ih =>
    match s with
    | [] => simp [matchLit] at h
    | c :: cs =>
      simp only [matchLit] at h
      by_cases hc : ciEq x c
      · simp only [hc, if_true] at h
        exact (ih h).trans (List.suffix_cons c cs)
      · simp [hc] at h

theorem wsPlus_suffix {s : Str} {p : Str × Str} (h : wsPlus s = some p) :
    p.2 <:+ s := by
  match s with
  | [] => simp [wsPlus] at h
  | c :: cs =>
    simp only [wsPlus] at h
    by_cases hc : isSpacePy c
    · simp only [hc, if_true, Option.some.injEq] at h
      rw [← h]
      exact (List.dropWhile_suffix isSpacePy).trans (List.suffix_cons c cs)
    · simp [hc] at h

theorem matchDate_suffix {s : Str} {p : Str × Str} (h : matchDate s = some p) :
    p.2 <:+ s := by
  have hl := matchDate_len h
  match s, h with
  | a :: b :: c :: d :: e :: f :: g :: h2 :: i :: j :: rest, h =>
    simp only [matchDate] at h
    split at h
    · cases h
      exact ⟨[a, b, c, d, e, f, g, h2, i, j], rfl⟩
    · cases h

theorem amCore_suffix {s : Str} {p : Str × Str} (h : amCore s = some p) :
    p.2 <:+ s := by
  simp only [amCore] at h
  match h1 : matchLit (("am").toList) s with
  | none => simp only [h1] at h; exact Option.noConfusion h
  | some r1 =>
    simp only [h1] at h
    match h2 : wsPlus r1 with
    | none => simp only [h2] at h; exact Option.noConfusion h
    | some pw =>
      simp only [h2] at h
      match h3 : matchDate pw.2 with
      | none => simp only [h3] at h; exact Option.noConfusion h
      | some pd =>
        simp only [h3] at h
        have hsfx : pd.2 <:+ s :=
          ((matchDate_suffix h3).trans (wsPlus_suffix h2)).trans (matchLit_suffix h1)
        match h4 : pd.2 with
        | [] =>
          simp only [h4, Option.some.injEq] at h
          rw [← h]
          exact ⟨s, by simp⟩
        | c :: cs =>
          simp only [h4] at h
          by_cases hw : isWordChar c
          · simp [hw] at h
          · simp only [hw, Bool.false_eq_true, if_false, Option.some.injEq] at h
            rw [← h]
            exact h4 ▸ hsfx

theorem amLoopAux_skip (full : Str) :
    ∀ (s : Str) (k : Nat), amLoopAux full k s = amLoopAux full 0 (s.drop k) := by
  intro s
  induction s with
  | nil => intro k; cases k <;> simp [amLoopAux]
  | cons c rest ih =>
    intro k
    match k with
    | 0 => simp
    | Nat.succ k0 =>
      show amLoopAux full k0 rest = _
      rw [ih k0]
      rfl

theorem amCore_nil : amCore ([] : Str) = none := rfl

/-- Unfolding the loop at an in-range position. -/
theorem amLoopAux_at (full : Str) (i : Nat) (hi : i < full.length) :
    amLoopAux full 0 (full.drop i) =
      (match amTry full i with
       | some p =>
         if gebuchtWindow full i then amLoopAux full 0 p.2
         else some (to_iso_date p.1)
       | none => amLoopAux full 0 (full.drop (i + 1))) := by
  have hdrop : full.drop i = full[i] :: full.drop (i + 1) :=
    List.drop_eq_getElem_cons hi
  have hlen : full.length - (full[i] :: full.drop (i + 1)).length = i := by
    have : (full.drop i).length = full.length - i := List.length_drop i full
    rw [hdrop] at this
    omega
  rw [hdrop]
  show (match (if wordBoundaryAt full (full.length - (full[i] :: full.drop (i + 1)).length)
               then amCore (full[i] :: full.drop (i + 1)) else none) with
        | some p =>
          if gebuchtWindow full (full.length - (full[i] :: full.drop (i + 1)).length) then
            amLoopAux full ((full.drop (i + 1)).length - p.2.length) (full.drop (i + 1))
          else some (to_iso_date p.1)
        | none => amLoopAux full 0 (full.drop (i + 1))) = _
  rw [hlen]
  have htry : amTry full i =
      (if wordBoundaryAt full i then amCore (full[i] :: full.drop (i + 1)) else none) := by
    rw [amTry, hdrop]
  rw [← htry]
  match hm : amTry full i with
  | none => rfl
  | some p =>
    simp only
    by_cases hg : gebuchtWindow full i
    · simp only [hg, if_true]
      -- the skip counter jumps exactly to the suffix after the match
      have hsfx : p.2 <:+ full.drop (i + 1) := by
        have hcore : amCore (full.drop i) = some p := by
          rw [amTry] at hm
          by_cases hb : wordBoundaryAt full i
          · rwa [if_pos hb] at hm
          · rw [if_neg hb] at hm; exact Option.noConfusion hm
        have hlt : p.2.length < (full.drop i).length := amCore_len hcore
        have hsuf : p.2 <:+ full.drop i := amCore_suffix hcore
        rw [hdrop] at hsuf hlt
        rcases List.suffix_cons_iff.mp hsuf with heq | hs
        · exfalso
          rw [heq] at hlt
          simp at hlt
        · exact hs
      rcases hsfx with ⟨t, ht⟩
      have hdropt : (full.drop (i + 1)).drop t.length = p.2 := by
        rw [← ht]
        exact List.drop_left t p.2
      have hlenx : t.length = (full.drop (i + 1)).length - p.2.length := by
        have := congrArg List.length ht
        simp only [List.length_append] at this
        omega
      rw [amLoopAux_skip full (full.drop (i + 1)) ((full.drop (i + 1)).length - p.2.length)]
      rw [← hlenx, hdropt]
    · simp only [hg, Bool.false_eq_true, if_false]

theorem amLoop_advance (full : Str) :
    ∀ i : Nat, (∀ j, j < i → amTry full j = none) →
      amLoopAux full 0 full = amLoopAux full 0 (full.drop i) := by
  intro i
  induction i with
  | zero => intro _; rw [List.drop_zero]
  | succ i0 ih =>
    intro h
    rw [ih (fun j hj => h j (Nat.lt_succ_of_lt hj))]
    by_cases hi : i0 < full.length
    · rw [amLoopAux_at full i0 hi, h i0 (Nat.lt_succ_self i0)]
    · have h1 : full.drop i0 = [] := List.drop_eq_nil_of_le (by omega)
      have h2 : full.drop (i0 + 1) = [] := List.drop_eq_nil_of_le (by omega)
      rw [h1, h2]

/-- C3: the date extractor's rules apply in priority order with first
match winning.  Whenever `Fahrtantritt am DD.MM.YYYY` matches somewhere
(taken at its leftmost occurrence), its date is returned ISO-converted,
regardless of any other date mention; the mixed booking/commencement
example returns `2024-01-05`; and in the rule-3 fallback (no rule-1 or
rule-2 match anywhere), an occurrence of `am DD.MM.YYYY` whose
30-character left window mentions `gebucht` is skipped, the scan
continuing after that match. -/
theorem c3_date_priority :
    (∀ (text : Str) (i : Nat) (c : Str),
        fahrtantrittAt (text.drop i) = some c →
        (∀ j, j < i → fahrtantrittAt (text.drop j) = none) →
        parse_date text = some (to_iso_date c))
    ∧ parse_date (("Gebucht am 01.01.2024 Fahrtantritt am 05.01.2024").toList)
        = some (("2024-01-05").toList)
    ∧ (∀ (text : Str) (i : Nat) (cap after : Str),
        (∀ j, j ≤ text.length → fahrtantrittAt (text.drop j) = none) →
        (∀ j, j ≤ text.length → gueltigkeitAt (text.drop j) = none) →
        amTry text i = some (cap, after) →
        (∀ j, j < i → amTry text j = none) →
        gebuchtWindow text i = true →
        parse_date text = amLoop text after) := by
  refine ⟨?_, by decide, ?_⟩
  · intro text i c hi hj
    have hs : scanFirst fahrtantrittAt text = some c :=
      scanFirst_first fahrtantrittAt text i c hi hj
    simp [parse_date, hs]
  · intro text i cap after hF hG htry hleft hguard
    have h1 : scanFirst fahrtantrittAt text = none := scanFirst_none _ text hF
    have h2 : scanFirst gueltigkeitAt text = none := scanFirst_none _ text hG
    have hi : i < text.length := by
      by_contra hni
      have hnil : text.drop i = [] := List.drop_eq_nil_of_le (by omega)
      rw [amTry, hnil] at htry
      by_cases hb : wordBoundaryAt text i
      · rw [if_pos hb, amCore_nil] at htry
        exact Option.noConfusion htry
      · rw [if_neg hb] at htry
        exact Option.noConfusion htry
    have hstep := amLoop_advance text i hleft
    rw [amLoopAux_at text i hi, htry] at hstep
    simp only [hguard, if_true] at hstep
    simp only [parse_date, h1, h2, amLoop]
    exact hstep

/-! ### Digit rendering and the `%d.%m.%Y` grammar, declaratively -/

theorem charOfDigit_toNat {k : Nat} (h : k ≤ 9) :
    (Char.ofNat (48 + k)).toNat = 48 + k := by
  have hv : Nat.isValidChar (48 + k) := Or.inl (by omega)
  unfold Char.ofNat
  rw [dif_pos hv]
  unfold Char.ofNatAux Char.toNat
  simp only [UInt32.toNat]
  exact BitVec.toNat_ofNatLt _ _

theorem isDigit_ofDigit {k : Nat} (h : k ≤ 9) :
    isDigitChar (Char.ofNat (48 + k)) = true := by
  simp only [isDigitChar, charOfDigit_toNat h, Bool.and_eq_true, decide_eq_true_eq]
  omega

theorem digitVal_ofDigit {k : Nat} (h : k ≤ 9) :
    digitVal (Char.ofNat (48 + k)) = k := by
  simp only [digitVal, charOfDigit_toNat h]
  omega

theorem natDigitsAux_fuel :
    ∀ f1 f2 n : Nat, n < f1 → n < f2 → natDigitsAux f1 n = natDigitsAux f2 n := by
  intro f1
  induction f1 with
  | zero => intro f2 n h _; omega
  | succ g ih =>
    intro f2 n h1 h2
    match f2 with
    | 0 => omega
    | Nat.succ h =>
      simp only [natDigitsAux]
      by_cases hn : n < 10
      · simp [hn]
      · simp only [hn, if_false]
        have hd : n / 10 < n := Nat.div_lt_self (by omega) (by omega)
        rw [ih h (n / 10) (by omega) (by omega)]

theorem natDigits_lt10 {n : Nat} (h : n < 10) :
    natDigits n = [Char.ofNat (48 + n)] := by
  simp [natDigits, natDigitsAux, h]

theorem natDigits_step {n : Nat} (h : 10 ≤ n) :
    natDigits n = natDigits (n / 10) ++ [Char.ofNat (48 + n % 10)] := by
  show natDigitsAux (n + 1) n = _
  simp only [natDigitsAux]
  rw [if_neg (by omega)]
  have hd : n / 10 < n := Nat.div_lt_self (by omega) (by omega)
  rw [natDigitsAux_fuel n (n / 10 + 1) (n / 10) (by omega) (by omega)]
  rfl

theorem pad2_eq {n : Nat} (h : n ≤ 99) :
    pad2 n = [Char.ofNat (48 + n / 10), Char.ofNat (48 + n % 10)] := by
  by_cases hn : n < 10
  · have h0 : n / 10 = 0 := by omega
    have h1 : n % 10 = n := by omega
    simp only [pad2, hn, if_true, natDigits_lt10 hn, h0, h1]
  · simp only [pad2, hn, if_false]
    rw [natDigits_step (by omega), natDigits_lt10 (by omega : n / 10 < 10)]
    rfl

theorem natDigits_four {y : Nat} (h1 : 1000 ≤ y) (h2 : y ≤ 9999) :
    natDigits y = [Char.ofNat (48 + y / 1000), Char.ofNat (48 + y / 100 % 10),
                   Char.ofNat (48 + y / 10 % 10), Char.ofNat (48 + y % 10)] := by
  rw [natDigits_step (by omega)]
  rw [natDigits_step (by omega : 10 ≤ y / 10)]
  rw [natDigits_step (by omega : 10 ≤ y / 10 / 10)]
  rw [natDigits_lt10 (by omega : y / 10 / 10 / 10 < 10)]
  have e1 : y / 10 / 10 / 10 = y / 1000 := by omega
  have e2 : y / 10 / 10 % 10 = y / 100 % 10 := by omega
  have e3 : y / 10 % 10 = y / 10 % 10 := rfl
  rw [e1, e2]
  rfl

/-- The day field of the strptime grammar, declaratively: either any
two-digit string of value 1–31 (`3[01]|[12]\d|0[1-9]`) or a one-digit
string of value 1–9 (`[1-9]`). -/
def dayRep (ds : Str) (d : Nat) : Prop :=
  (∃ c1 c2, ds = [c1, c2] ∧ isDigitChar c1 = true ∧ isDigitChar c2 = true ∧
    d = digitVal c1 * 10 + digitVal c2 ∧ 1 ≤ d ∧ d ≤ 31)
  ∨ (∃ c1, ds = [c1] ∧ isDigitChar c1 = true ∧ d = digitVal c1 ∧ 1 ≤ d ∧ d ≤ 9)

/-- The month field: two digits of value 1–12 (`1[0-2]|0[1-9]`) or one
digit of value 1–9. -/
def monthRep (ms : Str) (m : Nat) : Prop :=
  (∃ c1 c2, ms = [c1, c2] ∧ isDigitChar c1 = true ∧ isDigitChar c2 = true ∧
    m = digitVal c1 * 10 + digitVal c2 ∧ 1 ≤ m ∧ m ≤ 12)
  ∨ (∃ c1, ms = [c1] ∧ isDigitChar c1 = true ∧ m = digitVal c1 ∧ 1 ≤ m ∧ m ≤ 9)

/-- The year field: exactly four digits. -/
def yearRep (ys : Str) (y : Nat) : Prop :=
  ∃ c1 c2 c3 c4, ys = [c1, c2, c3, c4] ∧ isDigitChar c1 = true ∧
    isDigitChar c2 = true ∧ isDigitChar c3 = true ∧ isDigitChar c4 = true ∧
    y = digitVal c1 * 1000 + digitVal c2 * 100 + digitVal c3 * 10 + digitVal c4

/-- A string that parses as a real `day.month.year` date: a grammar
decomposition exists and the triple denotes a real proleptic-Gregorian
calendar date in years 1–9999. -/
def validDMYString (s : Str) : Prop :=
  ∃ d m y ds ms ys, s = ds ++ '.' :: ms ++ '.' :: ys ∧ dayRep ds d ∧
    monthRep ms m ∧ yearRep ys y ∧ 1 ≤ y ∧ d ≤ daysInMonth y m

theorem parseY_sound {ys : Str} {y : Nat} (h : parseY ys = some y) :
    yearRep ys y := by
  unfold parseY at h
  split at h
  · rename_i a b c d
    split at h
    · rename_i hd
      refine ⟨a, b, c, d, rfl, hd.1, hd.2.1, hd.2.2.1, hd.2.2.2, ?_⟩
      cases h
      rfl
    · exact Option.noConfusion h
  · exact Option.noConfusion h

theorem parseMY_sound {s : Str} {m y : Nat} (h : parseMY s = some (m, y)) :
    ∃ ms ys, s = ms ++ '.' :: ys ∧ monthRep ms m ∧ yearRep ys y := by
  unfold parseMY at h
  cases h2 : parseMY2 s with
  | some v =>
    rw [h2] at h
    simp only [Option.orElse] at h
    cases h
    unfold parseMY2 at h2
    split at h2
    · rename_i m1 m2 ys
      split at h2
      · rename_i hc
        cases hY : parseY ys with
        | none => rw [hY] at h2; exact Option.noConfusion h2
        | some y0 =>
          rw [hY] at h2
          simp only [Option.map_some'] at h2
          cases h2
          exact ⟨[m1, m2], ys, rfl,
            Or.inl ⟨m1, m2, rfl, hc.1, hc.2.1, rfl, hc.2.2.1, hc.2.2.2⟩,
            parseY_sound hY⟩
      · exact Option.noConfusion h2
    · exact Option.noConfusion h2
  | none =>
    rw [h2] at h
    simp only [Option.orElse] at h
    unfold parseMY1 at h
    split at h
    · rename_i m1 ys
      split at h
      · rename_i hc
        cases hY : parseY ys with
        | none => rw [hY] at h; exact Option.noConfusion h
        | some y0 =>
          rw [hY] at h
          simp only [Option.map_some'] at h
          cases h
          have hv : digitVal m1 ≤ 9 := by
            have := hc.1
            simp only [isDigitChar, Bool.and_eq_true, decide_eq_true_eq] at this
            simp only [digitVal]
            omega
          exact ⟨[m1], ys, rfl,
            Or.inr ⟨m1, rfl, hc.1, rfl, hc.2, hv⟩,
            parseY_sound hY⟩
      · exact Option.noConfusion h
    · exact Option.noConfusion h

theorem parseDMY_sound {s : Str} {d m y : Nat}
    (h : parseDMY s = some (d, m, y)) :
    ∃ ds ms ys, s = ds ++ '.' :: ms ++ '.' :: ys ∧ dayRep ds d ∧
      monthRep ms m ∧ yearRep ys y := by
  unfold parseDMY at h
  cases h2 : parseDMY2 s with
  | some v =>
    rw [h2] at h
    simp only [Option.orElse] at h
    cases h
    unfold parseDMY2 at h2
    split at h2
    · rename_i d1 d2 ms0
      split at h2
      · rename_i hc
        cases hM : parseMY ms0 with
        | none => rw [hM] at h2; exact Option.noConfusion h2
        | some my =>
          rw [hM] at h2
          simp only [Option.map_some'] at h2
          cases h2
          obtain ⟨ms, ys, hms, hrep, hyrep⟩ := parseMY_sound (by rw [hM])
          exact ⟨[d1, d2], ms, ys, by rw [hms]; rfl,
            Or.inl ⟨d1, d2, rfl, hc.1, hc.2.1, rfl, hc.2.2.1, hc.2.2.2⟩,
            hrep, hyrep⟩
      · exact Option.noConfusion h2
    · exact Option.noConfusion h2
  | none =>
    rw [h2] at h
    simp only [Option.orElse] at h
    unfold parseDMY1 at h
    split at h
    · rename_i d1 ms0
      split at h
      · rename_i hc
        cases hM : parseMY ms0 with
        | none => rw [hM] at h; exact Option.noConfusion h
        | some my =>
          rw [hM] at h
          simp only [Option.map_some'] at h
          cases h
          obtain ⟨ms, ys, hms, hrep, hyrep⟩ := parseMY_sound (by rw [hM])
          have hv : digitVal d1 ≤ 9 := by
            have := hc.1
            simp only [isDigitChar, Bool.and_eq_true, decide_eq_true_eq] at this
            simp only [digitVal]
            omega
          exact ⟨[d1], ms, ys, by rw [hms]; rfl,
            Or.inr ⟨d1, rfl, hc.1, rfl, hc.2, hv⟩,
            hrep, hyrep⟩
      · exact Option.noConfusion h
    · exact Option.noConfusion h

theorem daysInMonth_le_31 (y m : Nat) : daysInMonth y m ≤ 31 := by
  unfold daysInMonth
  by_cases h2 : m = 2
  · simp only [h2, if_true]
    by_cases hl : isLeap y <;> simp [hl]
  · simp only [h2, if_false]
    by_cases h30 : m = 4 ∨ m = 6 ∨ m = 9 ∨ m = 11 <;> simp [h30]

/-- C7 counterexample: `"01.01.0099"` is a valid `DD.MM.YYYY` calendar
date, but `to_iso_date` renders it `"99-01-01"` (glibc `%Y` does not
zero-pad), which is not the ISO 8601 `YYYY-MM-DD` rendering
`"0099-01-01"`. -/
theorem c7_roundtrip_counterexample :
    to_iso_date (("01.01.0099").toList) = ("99-01-01").toList
      ∧ ("99-01-01").toList ≠ ("0099-01-01").toList := by
  constructor
  · decide
  · decide

/-- C7 amended: for every real calendar date with a four-digit year not
below 1000, `to_iso_date` maps its `DD.MM.YYYY` rendering to the same
date in `YYYY-MM-DD` form with a four-digit year.  (For years 1–999 the
year is rendered without leading zeros, as the counterexample shows.) -/
theorem c7_roundtrip_amended :
    ∀ d m y : Nat, 1 ≤ d → 1 ≤ m → m ≤ 12 → d ≤ daysInMonth y m →
      1000 ≤ y → y ≤ 9999 →
      to_iso_date (pad2 d ++ '.' :: (pad2 m ++ '.' :: natDigits y))
          = natDigits y ++ '-' :: (pad2 m ++ '-' :: pad2 d)
        ∧ (natDigits y).length = 4 := by
  intro d m y hd1 hm1 hm12 hdm hy1 hy2
  have hd31 : d ≤ 31 := le_trans hdm (daysInMonth_le_31 y m)
  have hy4 := natDigits_four hy1 hy2
  have hY : parseY (natDigits y) = some y := by
    rw [hy4]
    simp only [parseY]
    rw [if_pos ⟨isDigit_ofDigit (by omega), isDigit_ofDigit (by omega),
      isDigit_ofDigit (by omega), isDigit_ofDigit (by omega)⟩]
    refine congrArg some ?_
    rw [digitVal_ofDigit (show y / 1000 ≤ 9 by omega),
      digitVal_ofDigit (show y / 100 % 10 ≤ 9 by omega),
      digitVal_ofDigit (show y / 10 % 10 ≤ 9 by omega),
      digitVal_ofDigit (show y % 10 ≤ 9 by omega)]
    omega
  have hMY : parseMY (pad2 m ++ '.' :: natDigits y) = some (m, y) := by
    have h2 : parseMY2 (pad2 m ++ '.' :: natDigits y) = some (m, y) := by
      rw [pad2_eq (show m ≤ 99 by omega)]
      simp only [List.cons_append, List.nil_append]
      simp only [parseMY2]
      rw [if_pos ⟨isDigit_ofDigit (by omega), isDigit_ofDigit (by omega),
        by rw [digitVal_ofDigit (show m / 10 ≤ 9 by omega),
               digitVal_ofDigit (show m % 10 ≤ 9 by omega)]; omega,
        by rw [digitVal_ofDigit (show m / 10 ≤ 9 by omega),
               digitVal_ofDigit (show m % 10 ≤ 9 by omega)]; omega⟩]
      rw [hY]
      simp only [Option.map_some']
      refine congrArg some ?_
      rw [digitVal_ofDigit (show m / 10 ≤ 9 by omega),
        digitVal_ofDigit (show m % 10 ≤ 9 by omega)]
      have : m / 10 * 10 + m % 10 = m := by omega
      rw [this]
    unfold parseMY
    rw [h2]
    rfl
  have hparse : parseDMY (pad2 d ++ '.' :: (pad2 m ++ '.' :: natDigits y))
      = some (d, m, y) := by
    have h2 : parseDMY2 (pad2 d ++ '.' :: (pad2 m ++ '.' :: natDigits y))
        = some (d, m, y) := by
      rw [pad2_eq (show d ≤ 99 by omega)]
      simp only [List.cons_append, List.nil_append]
      simp only [parseDMY2]
      rw [if_pos ⟨isDigit_ofDigit (by omega), isDigit_ofDigit (by omega),
        by rw [digitVal_ofDigit (show d / 10 ≤ 9 by omega),
               digitVal_ofDigit (show d % 10 ≤ 9 by omega)]; omega,
        by rw [digitVal_ofDigit (show d / 10 ≤ 9 by omega),
               digitVal_ofDigit (show d % 10 ≤ 9 by omega)]; omega⟩]
      rw [hMY]
      simp only [Option.map_some']
      refine congrArg some ?_
      rw [digitVal_ofDigit (show d / 10 ≤ 9 by omega),
        digitVal_ofDigit (show d % 10 ≤ 9 by omega)]
      have : d / 10 * 10 + d % 10 = d := by omega
      rw [this]
    unfold parseDMY
    rw [h2]
    rfl
  constructor
  · unfold to_iso_date
    rw [hparse]
    show (if 1 ≤ y ∧ d ≤ daysInMonth y m then
            natDigits y ++ '-' :: (pad2 m ++ '-' :: pad2 d)
          else pad2 d ++ '.' :: (pad2 m ++ '.' :: natDigits y)) = _
    rw [if_pos ⟨by omega, hdm⟩]
  · rw [hy4]
    rfl

/-- Closed instantiation of `c7_roundtrip_amended` at 5 January 2024. -/
theorem c7_roundtrip_witness :
    to_iso_date (pad2 5 ++ '.' :: (pad2 1 ++ '.' :: natDigits 2024))
        = natDigits 2024 ++ '-' :: (pad2 1 ++ '-' :: pad2 5)
      ∧ (natDigits 2024).length = 4 :=
  c7_roundtrip_amended 5 1 2024 (by decide) (by decide) (by decide)
    (by decide) (by decide) (by decide)

/-- C8: a string that does not parse as a real `day.month.year` date —
wrong format for the `%d.%m.%Y` grammar, or an impossible calendar
date — passes through `to_iso_date` unchanged (total, lenient
recovery; no error is ever surfaced). -/
theorem c8_malformed_date_passthrough :
    ∀ M : Str, ¬ validDMYString M → to_iso_date M = M := by
  intro M h
  unfold to_iso_date
  cases hp : parseDMY M with
  | none => rfl
  | some dmy =>
    by_cases hv : 1 ≤ dmy.2.2 ∧ dmy.1 ≤ daysInMonth dmy.2.2 dmy.2.1
    · exfalso
      obtain ⟨ds, ms, ys, hdec, hd, hm, hy⟩ :=
        parseDMY_sound (show parseDMY M = some (dmy.1, dmy.2.1, dmy.2.2) from hp)
      exact h ⟨dmy.1, dmy.2.1, dmy.2.2, ds, ms, ys, hdec, hd, hm, hy, hv.1, hv.2⟩
    · simp [hv]

/-- Closed instantiation of `c8_malformed_date_passthrough` on
`"31.02.2024"`, a well-formed string denoting an impossible calendar
date: the grammar decomposition is unique, forces `(d, m, y) =
(31, 2, 2024)`, and February 2024 has 29 days. -/
theorem c8_malformed_witness :
    to_iso_date (("31.02.2024").toList) = ("31.02.2024").toList := by
  apply c8_malformed_date_passthrough
  rintro ⟨d, m, y, ds, ms, ys, hs, hd, hm, hy, hy1, hdm⟩
  have hL : ("31.02.2024").toList = ['3','1','.','0','2','.','2','0','2','4'] := rfl
  rw [hL] at hs
  obtain ⟨y1, y2, y3, y4, hys, hdy1, hdy2, hdy3, hdy4, hyval⟩ := hy
  subst hys
  rcases hd with ⟨c1, c2, hds, _, _, hdval, _, _⟩ | ⟨c1, hds, _, hdval, _, _⟩
  · subst hds
    rcases hm with ⟨m1, m2, hms, _, _, hmval, _, _⟩ | ⟨m1, hms, _, hmval, _, _⟩
    · subst hms
      simp only [List.cons_append, List.nil_append, List.cons.injEq, and_true,
        true_and, List.nil_eq] at hs
      obtain ⟨e1, e2, e4, e5, e7, e8, e9, e10⟩ := hs
      subst e1; subst e2; subst e4; subst e5; subst e7; subst e8; subst e9; subst e10
      have hdv : d = 31 := by rw [hdval]; decide
      have hmv : m = 2 := by rw [hmval]; decide
      have hyv : y = 2024 := by rw [hyval]; decide
      rw [hdv, hmv, hyv] at hdm
      exact absurd hdm (by decide)
    · subst hms
      simp at hs
  · subst hds
    simp at hs

/-- Closed instantiation of `c3_date_priority`: the priority rule at the
leftmost `Fahrtantritt` occurrence (position 22), and the booking-date
guard skipping the match at position 8 of `"Gebucht am 01.01.2024 zz"`
and continuing after it. -/
theorem c3_date_witness :
    parse_date (("Gebucht am 01.01.2024 Fahrtantritt am 05.01.2024").toList)
        = some (("2024-01-05").toList)
    ∧ parse_date (("Gebucht am 01.01.2024 zz").toList)
        = amLoop (("Gebucht am 01.01.2024 zz").toList) ((" zz").toList) := by
  constructor
  · have h := c3_date_priority.1
      (("Gebucht am 01.01.2024 Fahrtantritt am 05.01.2024").toList) 22
      (("05.01.2024").toList) (by decide) (by decide)
    exact h.trans (by decide)
  · exact c3_date_priority.2.2 (("Gebucht am 01.01.2024 zz").toList) 8
      (("01.01.2024").toList) ((" zz").toList)
      (by decide) (by decide) (by decide) (by decide) (by decide)

/-! ### C6 — per-document error isolation in the batch loop -/

/-- C6: a document whose extraction raises produces exactly one row,
with every data field null and the error field holding the failure's
description; every other document still produces its normal row, and
the whole row list is produced (one row per document, the final output
is still written). -/
theorem c6_error_isolation :
    ∀ (provider : Str → Except Str Str) (paths : List Str) (i : Nat) (e : Str),
      i < paths.length →
      provider (paths.getD i []) = Except.error e →
      (buildRows provider paths).length = paths.length
      ∧ (buildRows provider paths)[i]? = some
          { datei := basename (paths.getD i []), datum := none, preis := none,
            fahrtart := none, start := none, ziel := none, fehler := some e }
      ∧ (e ≠ [] →
          ∀ r, (buildRows provider paths)[i]? = some r → r.fehler ≠ some [])
      ∧ (∀ j t, j < paths.length → provider (paths.getD j []) = Except.ok t →
          (buildRows provider paths)[j]? = some
            { datei := basename (paths.getD j []), datum := parse_date t,
              preis := parse_price t, fahrtart := (parse_route t).1,
              start := (parse_route t).2.1, ziel := (parse_route t).2.2,
              fehler := none }) := by
  intro provider paths i e hi hp
  have hrow : ∀ j, j < paths.length →
      (buildRows provider paths)[j]? = some (processDoc provider (paths.getD j [])) := by
    intro j hj
    unfold buildRows
    rw [List.getElem?_map, List.getElem?_eq_getElem hj]
    rw [List.getD_eq_getElem paths [] hj]
    rfl
  refine ⟨by simp [buildRows], ?_, ?_, ?_⟩
  · rw [hrow i hi]
    unfold processDoc
    rw [hp]
  · intro he r hr
    rw [hrow i hi] at hr
    unfold processDoc at hr
    rw [hp] at hr
    cases hr
    simpa using he
  · intro j t hj ht
    rw [hrow j hj]
    unfold processDoc
    rw [ht]

/-- Closed instantiation of `c6_error_isolation`: a three-document batch
whose middle document's text provider raises `"boom"`. -/
theorem c6_error_isolation_witness :
    (buildRows
        (fun p => if p = ("bad.pdf").toList
                  then Except.error (("boom").toList)
                  else Except.ok (("Gesamtpreis 1,00 €").toList))
        [("a.pdf").toList, ("bad.pdf").toList, ("z.pdf").toList]).length = 3
    ∧ (buildRows
        (fun p => if p = ("bad.pdf").toList
                  then Except.error (("boom").toList)
                  else Except.ok (("Gesamtpreis 1,00 €").toList))
        [("a.pdf").toList, ("bad.pdf").toList, ("z.pdf").toList])[1]? = some
        { datei := ("bad.pdf").toList, datum := none, preis := none,
          fahrtart := none, start := none, ziel := none,
          fehler := some (("boom").toList) } := by
  have h := c6_error_isolation
    (fun p => if p = ("bad.pdf").toList
              then Except.error (("boom").toList)
              else Except.ok (("Gesamtpreis 1,00 €").toList))
    [("a.pdf").toList, ("bad.pdf").toList, ("z.pdf").toList] 1 (("boom").toList)
    (by decide) (by rfl)
  exact ⟨h.1, h.2.1.trans (by decide)⟩

/-! ### C9 — output rows follow the sorted order of the input paths -/

theorem strLe_total : ∀ a b : Str, strLe a b = true ∨ strLe b a = true := by
  intro a
  induction a with
  | nil => intro b; left; rfl
  | cons x xs ih =>
    intro b
    match b with
    | [] => right; rfl
    | y :: ys =>
      by_cases hxy : x = y
      · subst hxy
        simp only [strLe, if_pos rfl]
        exact ih ys
      · rcases lt_or_gt_of_ne hxy with hlt | hgt
        · left
          simp [strLe, hxy, hlt]
        · right
          have hne : y ≠ x := fun he => hxy he.symm
          simp [strLe, hne, hgt]

theorem strLe_trans :
    ∀ a b c : Str, strLe a b = true → strLe b c = true → strLe a c = true := by
  intro a
  induction a with
  | nil => intro b c _ _; rfl
  | cons x xs ih =>
    intro b c hab hbc
    match b with
    | [] => simp [strLe] at hab
    | y :: ys =>
      match c with
      | [] => simp [strLe] at hbc
      | z :: zs =>
        simp only [strLe] at hab hbc ⊢
        by_cases hxy : x = y
        · subst hxy
          rw [if_pos rfl] at hab
          by_cases hyz : x = z
          · subst hyz
            rw [if_pos rfl] at hbc ⊢
            exact ih ys zs hab hbc
          · rw [if_neg hyz] at hbc ⊢
            exact hbc
        · rw [if_neg hxy] at hab
          by_cases hyz : y = z
          · subst hyz
            rw [if_neg hxy]
            exact hab
          · rw [if_neg hyz] at hbc
            have hxz : x < z :=
              lt_trans (of_decide_eq_true hab) (of_decide_eq_true hbc)
            have hne : x ≠ z := ne_of_lt hxz
            rw [if_neg hne]
            exact decide_eq_true hxz

theorem strLe_antisymm :
    ∀ a b : Str, strLe a b = true → strLe b a = true → a = b := by
  intro a
  induction a with
  | nil =>
    intro b _ hba
    match b with
    | [] => rfl
    | y :: ys => simp [strLe] at hba
  | cons x xs ih =>
    intro b hab hba
    match b with
    | [] => simp [strLe] at hab
    | y :: ys =>
      simp only [strLe] at hab hba
      by_cases hxy : x = y
      · subst hxy
        rw [if_pos rfl] at hab hba
        rw [ih ys hab hba]
      · rw [if_neg hxy] at hab
        have hne : y ≠ x := fun he => hxy he.symm
        rw [if_neg hne] at hba
        exact absurd (lt_trans (of_decide_eq_true hab) (of_decide_eq_true hba))
          (lt_irrefl x)

/-- C9: the batch output has one row per input document, in the
lexicographically sorted order of the document paths (by code point,
Python's `sorted` on strings): the path sequence actually processed is a
sorted permutation of the enumerated paths, the i-th row is the record
of the i-th path in sorted order, and the output is invariant under any
permutation of the enumeration order. -/
theorem c9_rows_sorted_order :
    ∀ (paths : List Str) (provider : Str → Except Str Str),
      List.Sorted (fun a b => strLe a b = true) (paths.mergeSort strLe)
      ∧ (paths.mergeSort strLe).Perm paths
      ∧ (mainRows paths provider).length = paths.length
      ∧ (∀ i, i < paths.length →
          (mainRows paths provider)[i]? =
            some (processDoc provider ((paths.mergeSort strLe).getD i [])))
      ∧ (∀ paths2, paths.Perm paths2 →
          mainRows paths provider = mainRows paths2 provider) := by
  intro paths provider
  have hsorted : ∀ l : List Str,
      List.Sorted (fun a b => strLe a b = true) (l.mergeSort strLe) := by
    intro l
    exact List.sorted_mergeSort (fun a b c => strLe_trans a b c)
      (fun a b => by
        rcases strLe_total a b with h | h <;> simp [h]) l
  refine ⟨hsorted paths, List.mergeSort_perm paths strLe, ?_, ?_, ?_⟩
  · simp [mainRows, buildRows, List.length_mergeSort]
  · intro i hi
    have hlen : (paths.mergeSort strLe).length = paths.length := by
      simp [List.length_mergeSort]
    have hi2 : i < (paths.mergeSort strLe).length := by omega
    unfold mainRows buildRows
    rw [List.getElem?_map, List.getElem?_eq_getElem hi2,
      List.getD_eq_getElem (paths.mergeSort strLe) [] hi2]
    rfl
  · intro paths2 hperm
    have hpp : (paths.mergeSort strLe).Perm (paths2.mergeSort strLe) :=
      ((List.mergeSort_perm paths strLe).trans hperm).trans
        (List.mergeSort_perm paths2 strLe).symm
    haveI : IsAntisymm Str (fun a b => strLe a b = true) :=
      ⟨fun a b hab hba => strLe_antisymm a b hab hba⟩
    have heq : paths.mergeSort strLe = paths2.mergeSort strLe :=
      List.eq_of_perm_of_sorted hpp (hsorted paths) (hsorted paths2)
    unfold mainRows
    rw [heq]

/-- Closed instantiation of `c9_rows_sorted_order` on the two-element
batch `["b.pdf", "a.pdf"]` and its permutation `["a.pdf", "b.pdf"]`. -/
theorem c9_rows_sorted_witness :
    ([("b.pdf").toList, ("a.pdf").toList].mergeSort strLe).Perm
        [("b.pdf").toList, ("a.pdf").toList]
    ∧ mainRows [("b.pdf").toList, ("a.pdf").toList] (fun _ => Except.error [])
        = mainRows [("a.pdf").toList, ("b.pdf").toList] (fun _ => Except.error []) := by
  have h := c9_rows_sorted_order [("b.pdf").toList, ("a.pdf").toList]
    (fun _ => Except.error [])
  exact ⟨h.2.1, h.2.2.2.2 [("a.pdf").toList, ("b.pdf").toList] (by decide)⟩

/-! ### Whitespace-stripping toolkit -/

theorem lstrip_eq_dropWhile : ∀ s : Str, lstrip s = s.dropWhile isSpacePy := by
  intro s
  induction s with
  | nil => rfl
  | cons c cs ih =>
    simp only [lstrip, List.dropWhile_cons]
    by_cases h : isSpacePy c <;> simp [h, ih]

theorem lstrip_cons_nonws {c : Char} (h : isSpacePy c = false) (s : Str) :
    lstrip (c :: s) = c :: s := by
  simp [lstrip, h]

theorem lstrip_idem : ∀ s : Str, lstrip (lstrip s) = lstrip s := by
  intro s
  induction s with
  | nil => rfl
  | cons c cs ih =>
    by_cases h : isSpacePy c
    · simp only [lstrip, h, if_true]
      exact ih
    · simp [lstrip, h]

theorem lstrip_all_ws {s : Str} (h : ∀ c ∈ s, isSpacePy c = true) :
    lstrip s = [] := by
  induction s with
  | nil => rfl
  | cons c cs ih =>
    simp only [lstrip, h c (by simp), if_true]
    exact ih (fun x hx => h x (by simp [hx]))

theorem rstrip_eq_nil_iff : ∀ s : Str, rstrip s = [] ↔ ∀ c ∈ s, isSpacePy c = true := by
  intro s
  induction s with
  | nil => simp [rstrip]
  | cons c cs ih =>
    simp only [rstrip]
    by_cases hr : rstrip cs = []
    · simp only [hr, if_true]
      by_cases hc : isSpacePy c
      · simp only [hc, if_true]
        constructor
        · intro _ x hx
          rcases List.mem_cons.mp hx with rfl | hx2
          · exact hc
          · exact (ih.mp hr) x hx2
        · intro _; trivial
      · simp only [hc, Bool.false_eq_true, if_false]
        constructor
        · intro h; exact absurd h (by simp)
        · intro h
          exact absurd (h c (by simp)) (by simp [hc])
    · simp only [hr, if_false]
      constructor
      · intro h; exact absurd h (by simp)
      · intro h
        exact absurd (ih.mpr (fun x hx => h x (by simp [hx]))) hr

theorem rstrip_cons_eq {c : Char} {cs : Str} (h : rstrip cs ≠ []) :
    rstrip (c :: cs) = c :: rstrip cs := by
  simp only [rstrip]
  rw [if_neg h]

theorem rstrip_cons_nonws {c : Char} (h : isSpacePy c = false) (cs : Str) :
    rstrip (c :: cs) = c :: rstrip cs := by
  by_cases hr : rstrip cs = []
  · simp only [rstrip, hr, if_true, h, Bool.false_eq_true, if_false]
  · exact rstrip_cons_eq hr

theorem rstrip_append : ∀ P S : Str,
    rstrip (P ++ S) = if rstrip S = [] then rstrip P else P ++ rstrip S := by
  intro P S
  induction P with
  | nil =>
    by_cases h : rstrip S = [] <;> simp [h, rstrip]
  | cons p P2 ih =>
    simp only [List.cons_append]
    by_cases h : rstrip S = []
    · rw [if_pos h] at ih ⊢
      simp only [rstrip, ih]
    · rw [if_neg h] at ih ⊢
      have hne : rstrip (P2 ++ S) ≠ [] := by
        rw [ih]
        intro hx
        have := List.append_eq_nil.mp hx
        exact h this.2
      rw [rstrip_cons_eq hne, ih]

theorem rstrip_idem : ∀ s : Str, rstrip (rstrip s) = rstrip s := by
  intro s
  induction s with
  | nil => rfl
  | cons c cs ih =>
    by_cases hr : rstrip cs = []
    · have h1 : rstrip (c :: cs) = if isSpacePy c then [] else [c] := by
        simp only [rstrip, hr, if_true]
      rw [h1]
      by_cases hc : isSpacePy c
      · rw [if_pos hc]
        rfl
      · rw [if_neg hc]
        rw [rstrip_cons_nonws (by simpa using hc)]
        rfl
    · rw [rstrip_cons_eq hr, rstrip_cons_eq (by rw [ih]; exact hr), ih]

theorem lstrip_rstrip_comm : ∀ s : Str, lstrip (rstrip s) = rstrip (lstrip s) := by
  intro s
  induction s with
  | nil => rfl
  | cons c cs ih =>
    by_cases hc : isSpacePy c
    · by_cases hr : rstrip cs = []
      · have h1 : rstrip (c :: cs) = [] := by
          simp only [rstrip, hr, if_true, hc, if_true]
        have hall := (rstrip_eq_nil_iff cs).mp hr
        rw [h1]
        simp only [lstrip, hc, if_true]
        rw [lstrip_all_ws hall]
        rfl
      · rw [rstrip_cons_eq hr]
        simp only [lstrip, hc, if_true]
        exact ih
    · simp only [lstrip, hc, Bool.false_eq_true, if_false]
      by_cases hr : rstrip cs = []
      · simp only [rstrip, hr, if_true, hc, Bool.false_eq_true, if_false]
        rw [lstrip_cons_nonws (by simp [hc])]
      · rw [rstrip_cons_eq hr, lstrip_cons_nonws (by simp [hc])]

theorem strip_rstrip (s : Str) : strip (rstrip s) = strip s := by
  unfold strip
  rw [lstrip_rstrip_comm, rstrip_idem]

theorem strip_lstrip (s : Str) : strip (lstrip s) = strip s := by
  unfold strip
  rw [lstrip_idem]

theorem strip_dropWhile (s : Str) : strip (s.dropWhile isSpacePy) = strip s := by
  rw [← lstrip_eq_dropWhile, strip_lstrip]

/-! ### The explicit-separator split on a decomposed route text -/

theorem sep_not_ws {c : Char} (h : isSepChar c = true) : isSpacePy c = false := by
  simp only [isSepChar, Bool.or_eq_true, decide_eq_true_eq] at h
  rcases h with (((((h | h) | h) | h) | h) | h) | h <;> subst h <;> decide

theorem dropWhile_all_ws_append {A : Str} (h : ∀ x ∈ A, isSpacePy x = true) :
    ∀ B : Str, (A ++ B).dropWhile isSpacePy = B.dropWhile isSpacePy := by
  induction A with
  | nil => intro B; rfl
  | cons a A2 ih =>
    intro B
    simp only [List.cons_append, List.dropWhile_cons, h a (by simp), if_true]
    exact ih (fun x hx => h x (by simp [hx])) B

theorem splitSepOnce_cons (c : Char) (t : Str) :
    splitSepOnce (c :: t) =
      match sepMatchAt (c :: t) with
      | some rest => some (([] : Str), rest)
      | none =>
        match splitSepOnce t with
        | some p => some (c :: p.1, p.2)
        | none => none := rfl

/-- Leftmost-match behaviour of `re.split` on a text whose first
separator character is exhibited: the part before is the text before it
with trailing whitespace consumed by the match's leading `\s*`, the part
after has the leading whitespace consumed by the trailing `\s*`. -/
theorem splitSepOnce_append {c : Char} (hc : isSepChar c = true) :
    ∀ A B : Str, (∀ x ∈ A, isSepChar x = false) →
      splitSepOnce (A ++ c :: B) = some (rstrip A, B.dropWhile isSpacePy) := by
  intro A
  induction A with
  | nil =>
    intro B _
    have h1 : sepMatchAt (c :: B) = some (B.dropWhile isSpacePy) := by
      unfold sepMatchAt
      rw [List.dropWhile_cons, if_neg (by simp [sep_not_ws hc])]
      show (if isSepChar c = true then some (B.dropWhile isSpacePy) else none) = _
      rw [if_pos hc]
    show splitSepOnce (c :: B) = some (rstrip [], B.dropWhile isSpacePy)
    rw [splitSepOnce_cons, h1]
    rfl
  | cons a A2 ih =>
    intro B hA
    have hA2 : ∀ x ∈ A2, isSepChar x = false := fun x hx => hA x (by simp [hx])
    by_cases hall : ∀ x ∈ (a :: A2), isSpacePy x = true
    · -- the whole prefix is whitespace: the match starts at once
      have hdw : (a :: (A2 ++ c :: B)).dropWhile isSpacePy = c :: B := by
        have := dropWhile_all_ws_append hall (c :: B)
        simp only [List.cons_append] at this
        rw [this]
        simp [List.dropWhile_cons, sep_not_ws hc]
      have h1 : sepMatchAt (a :: (A2 ++ c :: B)) = some (B.dropWhile isSpacePy) := by
        unfold sepMatchAt
        rw [hdw]
        show (if isSepChar c = true then some (B.dropWhile isSpacePy) else none) = _
        rw [if_pos hc]
      show splitSepOnce (a :: (A2 ++ c :: B)) = _
      rw [splitSepOnce_cons, h1, (rstrip_eq_nil_iff _).mpr hall]
    · -- some non-whitespace character precedes the separator: no match here
      have hne : (a :: A2).dropWhile isSpacePy ≠ [] := by
        intro hx
        exact hall (List.dropWhile_eq_nil_iff.mp hx)
      have hfail : sepMatchAt (a :: (A2 ++ c :: B)) = none := by
        unfold sepMatchAt
        have happ : (a :: (A2 ++ c :: B)).dropWhile isSpacePy =
            (a :: A2).dropWhile isSpacePy ++ c :: B := by
          have : (a :: (A2 ++ c :: B)) = (a :: A2) ++ c :: B := by simp
          rw [this, List.dropWhile_append]
          rw [if_neg (by simpa using hne)]
        rw [happ]
        match hx : (a :: A2).dropWhile isSpacePy, hne with
        | x₀ :: t₀, _ =>
          have hmem : x₀ ∈ a :: A2 :=
            (List.dropWhile_suffix isSpacePy).sublist.subset (by rw [hx]; simp)
          simp only [List.cons_append]
          rw [if_neg (by simp [hA x₀ hmem])]
      show splitSepOnce (a :: (A2 ++ c :: B)) = _
      rw [splitSepOnce_cons, hfail, ih B hA2]
      have hstep : rstrip (a :: A2) = a :: rstrip A2 := by
        by_cases hws : isSpacePy a
        · have hA2ne : rstrip A2 ≠ [] := by
            intro hz
            exact hall (fun x hx => by
              rcases List.mem_cons.mp hx with rfl | hx2
              · exact hws
              · exact (rstrip_eq_nil_iff A2).mp hz x hx2)
          exact rstrip_cons_eq hA2ne
        · exact rstrip_cons_nonws (by simp [hws]) A2
      rw [hstep]

/-- C2 counterexample: the claim promises that for every listed
separator form, including `->`, the trimmed text after the separator
becomes the destination.  But ordered alternation tries `-` before
`->`, so `"Hinfahrt X -> Y"` is split at the bare hyphen and the
destination keeps the leading `"> "`: the resolver returns `"> Y"`,
not `"Y"`. -/
theorem c2_sep_counterexample :
    parse_route (("Hinfahrt X -> Y").toList)
        = (some (("Hinfahrt").toList), some (("X").toList), some (("> Y").toList))
    ∧ (("> Y").toList : Str) ≠ ("Y").toList := by
  refine ⟨by decide, by decide⟩

/-- C2 amended: for a route text (after Via truncation) decomposed
around its first separator character (hyphen, en-dash, em-dash, `→`,
`›`, `>`, `<` — each a single character; `->` is handled by its
hyphen, which leaves the `>` on the destination), with both trimmed
halves non-empty, the resolver returns the trimmed halves as origin and
destination.  The explicit separator example of the spec holds. -/
theorem c2_sep_split_amended :
    (∀ (rp0 A B : Str) (c : Char),
        truncVia (strip rp0) = A ++ c :: B →
        isSepChar c = true →
        (∀ x ∈ A, isSepChar x = false) →
        strip A ≠ [] → strip B ≠ [] →
        split_start_ziel rp0 = (some (strip A), some (strip B)))
    ∧ parse_route (("Hinfahrt München - Frankfurt(Main)Hbf").toList)
        = (some (("Hinfahrt").toList), some (("München").toList),
           some (("Frankfurt(Main)Hbf").toList)) := by
  constructor
  · intro rp0 A B c heq hc hA hsA hsB
    unfold split_start_ziel splitCore
    rw [heq, splitSepOnce_append hc A B hA]
    show (if strip (rstrip A) ≠ [] ∧ strip (B.dropWhile isSpacePy) ≠ []
          then (some (strip (rstrip A)), some (strip (B.dropWhile isSpacePy)))
          else splitCore.splitHeur (A ++ c :: B)) = (some (strip A), some (strip B))
    rw [strip_rstrip, strip_dropWhile]
    rw [if_pos ⟨hsA, hsB⟩]
  · decide

/-- Closed instantiation of the general part of `c2_sep_split_amended`
on `"A – B"` (en-dash). -/
theorem c2_sep_split_witness :
    split_start_ziel (("A – B").toList)
      = (some (strip (("A ").toList)), some (strip ((" B").toList))) :=
  c2_sep_split_amended.1 (("A – B").toList) (("A ").toList) ((" B").toList) '–'
    (by decide) (by decide) (by decide) (by decide) (by decide)

/-! ### C4 — via-clause truncation -/

/-- Whether step 3 (the explicit-separator split) applies: a separator
match exists and both trimmed halves are non-empty. -/
def sepApplies (rp : Str) : Bool :=
  match splitSepOnce rp with
  | some p => decide (strip p.1 ≠ []) && decide (strip p.2 ≠ [])
  | none => false

/-- C4 counterexample: on the spec's own example the truncated route
text `"Köln Hbf"` still has two tokens, so the heuristic splits it —
the resolver returns origin `"Köln"` and destination `"Hbf"`, not
origin `"Köln Hbf"` with a null destination as the claim states. -/
theorem c4_via_counterexample :
    parse_route (("Einfache Fahrt Köln Hbf Via: Düsseldorf Frankfurt Hbf").toList)
        = (some (("Einfache Fahrt").toList), some (("Köln").toList),
           some (("Hbf").toList))
    ∧ parse_route (("Einfache Fahrt Köln Hbf Via: Düsseldorf Frankfurt Hbf").toList)
        ≠ (some (("Einfache Fahrt").toList), some (("Köln Hbf").toList), none) := by
  refine ⟨by decide, by decide⟩

/-- C4 amended: the route resolver truncates the route text at the
first Via marker before any splitting — for the spec's example the
split is computed only on `"Köln Hbf"`, whatever follows the marker —
and the split result is then obtained from the truncated text alone:
with two remaining tokens the heuristic returns `("Köln", "Hbf")`;
destination is null (and origin is the whole truncated text, or null
when it is empty) exactly when, no separator split applying, fewer than
2 tokens remain after truncation. -/
theorem c4_via_truncation_amended :
    (∀ S : Str,
        split_start_ziel (("Köln Hbf").toList ++ (" Via:").toList ++ S)
          = split_start_ziel (("Köln Hbf").toList))
    ∧ (∀ rp0 : Str,
        sepApplies (truncVia (strip rp0)) = false →
        (pySplitWs (truncVia (strip rp0))).length < 2 →
        split_start_ziel rp0 =
          ((if truncVia (strip rp0) = [] then none else some (truncVia (strip rp0))),
           none))
    ∧ parse_route (("Einfache Fahrt Köln Hbf Via: Düsseldorf Frankfurt Hbf").toList)
        = (some (("Einfache Fahrt").toList), some (("Köln").toList),
           some (("Hbf").toList))
    ∧ parse_route (("Einfache Fahrt Köln Via: Düsseldorf").toList)
        = (some (("Einfache Fahrt").toList), some (("Köln").toList), none) := by
  refine ⟨?_, ?_, by decide, by decide⟩
  · intro S
    have key : truncVia (strip (("Köln Hbf Via:").toList ++ S))
        = ("Köln Hbf").toList := by
      show truncVia (rstrip (lstrip (("Köln Hbf Via:").toList ++ S))) = _
      have hL : lstrip (("Köln Hbf Via:").toList ++ S)
          = ("Köln Hbf Via:").toList ++ S := rfl
      rw [hL, rstrip_append]
      by_cases hS : rstrip S = []
      · rw [if_pos hS]
        rfl
      · rw [if_neg hS]
        show strip (splitBefore litViaColon (splitBefore litViaSp
          (splitBefore litViaColonSp (("Köln Hbf Via:").toList ++ rstrip S)))) = _
        have h2 : splitBefore litViaColonSp (("Köln Hbf Via:").toList ++ rstrip S)
            = ("Köln Hbf").toList := rfl
        rw [h2]
        rfl
    show split_start_ziel ((("Köln Hbf").toList ++ (" Via:").toList) ++ S) = _
    have hP : (("Köln Hbf").toList ++ (" Via:").toList) = ("Köln Hbf Via:").toList := rfl
    rw [hP]
    unfold split_start_ziel
    rw [key]
    rw [show truncVia (strip (("Köln Hbf").toList)) = ("Köln Hbf").toList from rfl]
  · intro rp0 hsep htok
    unfold split_start_ziel splitCore
    cases hsp : splitSepOnce (truncVia (strip rp0)) with
    | none =>
      show splitCore.splitHeur (truncVia (strip rp0)) = _
      unfold splitCore.splitHeur
      rw [if_pos htok]
    | some p =>
      unfold sepApplies at hsep
      rw [hsp] at hsep
      have hsep2 : (decide (strip p.1 ≠ []) && decide (strip p.2 ≠ [])) = false := hsep
      have hni : ¬(strip p.1 ≠ [] ∧ strip p.2 ≠ []) := by
        intro hand
        rw [decide_eq_true hand.1, decide_eq_true hand.2] at hsep2
        exact Bool.noConfusion hsep2
      show (if strip p.1 ≠ [] ∧ strip p.2 ≠ []
            then (some (strip p.1), some (strip p.2))
            else splitCore.splitHeur (truncVia (strip rp0))) = _
      rw [if_neg hni]
      unfold splitCore.splitHeur
      rw [if_pos htok]

/-- Closed instantiation of `c4_via_truncation_amended`: truncation with
a concrete via clause, and the fewer-than-2-tokens fallback. -/
theorem c4_via_truncation_witness :
    split_start_ziel (("Köln Hbf").toList ++ (" Via:").toList ++ ("Bonn").toList)
        = split_start_ziel (("Köln Hbf").toList)
    ∧ split_start_ziel (("Solo").toList)
        = ((if truncVia (strip (("Solo").toList)) = [] then none
            else some (truncVia (strip (("Solo").toList)))), none) :=
  ⟨c4_via_truncation_amended.1 (("Bonn").toList),
   c4_via_truncation_amended.2.1 (("Solo").toList) (by decide) (by decide)⟩

/-! ### C1/C10 — the heuristic token split as a strict-improvement fold -/

theorem rstrip_all_nonws : ∀ {s : Str}, (∀ c ∈ s, isSpacePy c = false) → rstrip s = s := by
  intro s
  induction s with
  | nil => intro _; rfl
  | cons c cs ih =>
    intro h
    have hcs : rstrip cs = cs := ih (fun x hx => h x (by simp [hx]))
    match cs, hcs with
    | [], _ =>
      have hc : isSpacePy c = false := h c (by simp)
      simp [rstrip, hc]
    | d :: cs2, hcs =>
      rw [rstrip_cons_eq (by rw [hcs]; simp), hcs]

theorem joinSp_ne_nil : ∀ {l : List Str}, l ≠ [] → (∀ t ∈ l, t ≠ []) →
    joinSp l ≠ [] := by
  intro l hl h
  match l with
  | [a] =>
    show a ≠ []
    exact h a (by simp)
  | a :: b :: r =>
    show a ++ ' ' :: joinSp (b :: r) ≠ []
    simp

theorem rstrip_joinSp : ∀ l : List Str,
    (∀ t ∈ l, t ≠ [] ∧ ∀ c ∈ t, isSpacePy c = false) →
    rstrip (joinSp l) = joinSp l := by
  intro l
  induction l with
  | nil => intro _; rfl
  | cons a rest ih =>
    intro h
    match rest with
    | [] =>
      show rstrip a = a
      exact rstrip_all_nonws (h a (by simp)).2
    | b :: r =>
      show rstrip (a ++ ' ' :: joinSp (b :: r)) = a ++ ' ' :: joinSp (b :: r)
      have hJ : rstrip (joinSp (b :: r)) = joinSp (b :: r) :=
        ih (fun t ht => h t (by simp [ht]))
      have hJne : joinSp (b :: r) ≠ [] :=
        joinSp_ne_nil (by simp) (fun t ht => (h t (by simp [ht])).1)
      rw [rstrip_append]
      rw [rstrip_cons_eq (show rstrip (joinSp (b :: r)) ≠ [] by rw [hJ]; exact hJne), hJ]
      rw [if_neg (by simp)]

theorem lstrip_joinSp : ∀ l : List Str, l ≠ [] →
    (∀ t ∈ l, t ≠ [] ∧ ∀ c ∈ t, isSpacePy c = false) →
    lstrip (joinSp l) = joinSp l := by
  intro l hl h
  match l with
  | [a] =>
    show lstrip a = a
    match a, (h a (by simp)).1 with
    | c :: a2, _ =>
      exact lstrip_cons_nonws ((h (c :: a2) (by simp)).2 c (by simp)) a2
  | a :: b :: r =>
    show lstrip (a ++ ' ' :: joinSp (b :: r)) = a ++ ' ' :: joinSp (b :: r)
    match a, (h a (by simp)).1 with
    | c :: a2, _ =>
      rw [List.cons_append]
      exact lstrip_cons_nonws ((h (c :: a2) (by simp)).2 c (by simp)) _

theorem strip_joinSp {l : List Str} (hl : l ≠ [])
    (h : ∀ t ∈ l, t ≠ [] ∧ ∀ c ∈ t, isSpacePy c = false) :
    strip (joinSp l) = joinSp l := by
  unfold strip
  rw [lstrip_joinSp l hl h, rstrip_joinSp l h]

theorem pySplitAux_good :
    ∀ (s acc : Str), (∀ c ∈ acc, isSpacePy c = false) →
      ∀ t ∈ pySplitAux s acc, t ≠ [] ∧ ∀ c ∈ t, isSpacePy c = false := by
  intro s
  induction s with
  | nil =>
    intro acc hacc t ht
    unfold pySplitAux at ht
    by_cases h : acc = []
    · rw [if_pos h] at ht
      simp at ht
    · rw [if_neg h] at ht
      have ht2 : t = acc.reverse := by simpa using ht
      subst ht2
      refine ⟨by simpa using h, ?_⟩
      intro c hc
      exact hacc c (by simpa using hc)
  | cons c cs ih =>
    intro acc hacc t ht
    unfold pySplitAux at ht
    by_cases hws : isSpacePy c
    · rw [if_pos hws] at ht
      by_cases h : acc = []
      · rw [if_pos h] at ht
        exact ih [] (by simp) t ht
      · rw [if_neg h] at ht
        rcases List.mem_cons.mp ht with rfl | ht2
        · refine ⟨by simpa using h, ?_⟩
          intro x hx
          exact hacc x (by simpa using hx)
        · exact ih [] (by simp) t ht2
    · rw [if_neg hws] at ht
      refine ih (c :: acc) ?_ t ht
      intro x hx
      rcases List.mem_cons.mp hx with rfl | hx2
      · simpa using hws
      · exact hacc x hx2

theorem pySplitWs_good (s : Str) :
    ∀ t ∈ pySplitWs s, t ≠ [] ∧ ∀ c ∈ t, isSpacePy c = false :=
  pySplitAux_good s [] (by simp)

/-- The origin candidate at split point `k`:
`" ".join(tokens[:k])`. -/
def candA (tokens : List Str) (k : Nat) : Str := joinSp (tokens.take k)

/-- The destination candidate at split point `k`:
`" ".join(tokens[k:])`. -/
def candB (tokens : List Str) (k : Nat) : Str := joinSp (tokens.drop k)

/-- The heuristic score of the candidate pair at split point `k`. -/
def candScoreAt (tokens : List Str) (k : Nat) : Int :=
  candScore (candA tokens k) (candB tokens k)

theorem score_ending_nonneg (s : Str) : 0 ≤ score_ending s := by
  by_cases h : stationEndings.any (fun e => e.isSuffixOf (strip (s.map pyLowerChar)))
  · simp [score_ending, h]
  · simp [score_ending, h]

theorem candScore_ge (a b : Str) : -3 ≤ candScore a b := by
  have h1 := score_ending_nonneg a
  have h2 := score_ending_nonneg b
  unfold candScore
  split_ifs <;> omega

theorem heurStep_eq (tokens : List Str)
    (htok : ∀ t ∈ tokens, t ≠ [] ∧ ∀ c ∈ t, isSpacePy c = false)
    (k : Nat) (hk1 : 1 ≤ k) (hk : k < tokens.length)
    (st : Option (Str × Str) × Int) :
    heurStep tokens st k =
      if st.2 < candScoreAt tokens k
      then (some (candA tokens k, candB tokens k), candScoreAt tokens k)
      else st := by
  have hitne : tokens ≠ [] := by
    intro h
    rw [h] at hk
    simp at hk
  have htake_ne : tokens.take k ≠ [] := by
    rw [Ne, List.take_eq_nil_iff]
    push_neg
    exact ⟨by omega, hitne⟩
  have hdrop_ne : tokens.drop k ≠ [] := by
    rw [Ne, List.drop_eq_nil_iff]
    omega
  have htake_good : ∀ t ∈ tokens.take k, t ≠ [] ∧ ∀ c ∈ t, isSpacePy c = false :=
    fun t ht => htok t (List.take_subset k tokens ht)
  have hdrop_good : ∀ t ∈ tokens.drop k, t ≠ [] ∧ ∀ c ∈ t, isSpacePy c = false :=
    fun t ht => htok t (List.drop_subset k tokens ht)
  have hA : strip (joinSp (tokens.take k)) = candA tokens k :=
    strip_joinSp htake_ne htake_good
  have hB : strip (joinSp (tokens.drop k)) = candB tokens k :=
    strip_joinSp hdrop_ne hdrop_good
  have hAne : candA tokens k ≠ [] :=
    joinSp_ne_nil htake_ne (fun t ht => (htake_good t ht).1)
  have hBne : candB tokens k ≠ [] :=
    joinSp_ne_nil hdrop_ne (fun t ht => (hdrop_good t ht).1)
  show (if strip (joinSp (tokens.take k)) = [] ∨ strip (joinSp (tokens.drop k)) = []
        then st
        else if st.2 < candScore (strip (joinSp (tokens.take k)))
                        (strip (joinSp (tokens.drop k)))
             then (some (strip (joinSp (tokens.take k)), strip (joinSp (tokens.drop k))),
                   candScore (strip (joinSp (tokens.take k)))
                     (strip (joinSp (tokens.drop k))))
             else st) = _
  rw [hA, hB]
  rw [if_neg (not_or.mpr ⟨hAne, hBne⟩)]
  rfl

theorem heurFold_loop (tokens : List Str)
    (htok : ∀ t ∈ tokens, t ≠ [] ∧ ∀ c ∈ t, isSpacePy c = false) :
    ∀ m : Nat, 1 ≤ m → m + 1 ≤ tokens.length →
      ∃ kb, 1 ≤ kb ∧ kb ≤ m ∧
        (List.range' 1 m).foldl (heurStep tokens) (none, -10)
          = (some (candA tokens kb, candB tokens kb), candScoreAt tokens kb) ∧
        (∀ j, 1 ≤ j → j ≤ m → candScoreAt tokens j ≤ candScoreAt tokens kb) ∧
        (∀ j, 1 ≤ j → j < kb → candScoreAt tokens j < candScoreAt tokens kb) := by
  intro m
  induction m with
  | zero => intro h; omega
  | succ m0 ih =>
    intro _ hm1
    by_cases h0 : m0 = 0
    · subst h0
      refine ⟨1, le_refl 1, le_refl 1, ?_, ?_, ?_⟩
      · show List.foldl (heurStep tokens) (none, -10) [1] = _
        show heurStep tokens (none, -10) 1 = _
        rw [heurStep_eq tokens htok 1 (by omega) (by omega)]
        rw [if_pos (by
          have := candScore_ge (candA tokens 1) (candB tokens 1)
          show (-10 : Int) < candScoreAt tokens 1
          unfold candScoreAt
          omega)]
      · intro j h1 h2
        have : j = 1 := by omega
        subst this
        exact le_refl _
      · intro j h1 h2
        omega
    · have hm0 : 1 ≤ m0 := by omega
      obtain ⟨kb, hkb1, hkbm, hfold, hmax, hstrict⟩ := ih hm0 (by omega)
      have hconcat : List.range' 1 (m0 + 1) = List.range' 1 m0 ++ [1 + m0] := by
        have := @List.range'_concat 1 1 m0
        simpa using this
      rw [hconcat, List.foldl_append, hfold]
      simp only [List.foldl_cons, List.foldl_nil]
      rw [heurStep_eq tokens htok (1 + m0) (by omega) (by omega)]
      by_cases hlt : candScoreAt tokens kb < candScoreAt tokens (1 + m0)
      · refine ⟨1 + m0, by omega, by omega, by rw [if_pos hlt], ?_, ?_⟩
        · intro j h1 h2
          by_cases hj : j ≤ m0
          · exact le_of_lt (lt_of_le_of_lt (hmax j h1 hj) hlt)
          · have : j = 1 + m0 := by omega
            subst this
            exact le_refl _
        · intro j h1 h2
          have hj : j ≤ m0 := by omega
          exact lt_of_le_of_lt (hmax j h1 hj) hlt
      · refine ⟨kb, hkb1, by omega, by rw [if_neg hlt], ?_, hstrict⟩
        intro j h1 h2
        by_cases hj : j ≤ m0
        · exact hmax j h1 hj
        · have : j = 1 + m0 := by omega
          subst this
          exact le_of_not_lt hlt

/-- The best-candidate fold returns the least split point of maximal
score (strict-improvement replacement keeps the first-seen maximum). -/
theorem heurFold_argmax (tokens : List Str)
    (htok : ∀ t ∈ tokens, t ≠ [] ∧ ∀ c ∈ t, isSpacePy c = false)
    (hn : 2 ≤ tokens.length) :
    ∃ k, 1 ≤ k ∧ k < tokens.length ∧
      heurFold tokens
        = (some (candA tokens k, candB tokens k), candScoreAt tokens k) ∧
      (∀ j, 1 ≤ j → j < tokens.length →
        candScoreAt tokens j ≤ candScoreAt tokens k) ∧
      (∀ j, 1 ≤ j → j < k → candScoreAt tokens j < candScoreAt tokens k) := by
  obtain ⟨kb, h1, h2, h3, h4, h5⟩ :=
    heurFold_loop tokens htok (tokens.length - 1) (by omega) (by omega)
  refine ⟨kb, h1, by omega, h3, ?_, h5⟩
  intro j hj1 hj2
  exact h4 j hj1 (by omega)

/-- When the explicit-separator split does not apply, steps 2–4 reduce
to the heuristic part. -/
theorem splitCore_heur (rp : Str) (hsep : sepApplies rp = false) :
    splitCore rp = splitCore.splitHeur rp := by
  unfold splitCore
  cases hsp : splitSepOnce rp with
  | none => rfl
  | some p =>
    unfold sepApplies at hsep
    rw [hsp] at hsep
    have hsep2 : (decide (strip p.1 ≠ []) && decide (strip p.2 ≠ [])) = false := hsep
    have hni : ¬(strip p.1 ≠ [] ∧ strip p.2 ≠ []) := by
      intro hand
      rw [decide_eq_true hand.1, decide_eq_true hand.2] at hsep2
      exact Bool.noConfusion hsep2
    show (if strip p.1 ≠ [] ∧ strip p.2 ≠ []
          then (some (strip p.1), some (strip p.2))
          else splitCore.splitHeur rp) = _
    rw [if_neg hni]

theorem candA_ne (tokens : List Str)
    (htok : ∀ t ∈ tokens, t ≠ [] ∧ ∀ c ∈ t, isSpacePy c = false)
    (k : Nat) (hk1 : 1 ≤ k) (hk : k < tokens.length) : candA tokens k ≠ [] := by
  have hitne : tokens ≠ [] := by
    intro h
    rw [h] at hk
    simp at hk
  have htake_ne : tokens.take k ≠ [] := by
    rw [Ne, List.take_eq_nil_iff]
    push_neg
    exact ⟨by omega, hitne⟩
  exact joinSp_ne_nil htake_ne
    (fun t ht => (htok t (List.take_subset k tokens ht)).1)

theorem candB_ne (tokens : List Str)
    (htok : ∀ t ∈ tokens, t ≠ [] ∧ ∀ c ∈ t, isSpacePy c = false)
    (k : Nat) (hk : k < tokens.length) : candB tokens k ≠ [] := by
  have hdrop_ne : tokens.drop k ≠ [] := by
    rw [Ne, List.drop_eq_nil_iff]
    omega
  exact joinSp_ne_nil hdrop_ne
    (fun t ht => (htok t (List.drop_subset k tokens ht)).1)

/-- C1: whenever the heuristic token split runs (no explicit-separator
split applied, at least two whitespace tokens after Via truncation), the
resolver returns the candidate at a split point `k` whose score is
maximal, with ties broken towards the smallest `k` (every smaller split
point scores strictly less); origin is `tokens[0:k]` joined by a space,
destination `tokens[k:]` joined by a space.  In particular, on
`"Einfache Fahrt Berlin Hbf Hamburg Hbf"` the resolver returns kind
`"Einfache Fahrt"`, origin `"Berlin Hbf"`, destination
`"Hamburg Hbf"`. -/
theorem c1_heuristic_argmax :
    (∀ rp0 : Str,
        sepApplies (truncVia (strip rp0)) = false →
        2 ≤ (pySplitWs (truncVia (strip rp0))).length →
        ∃ k, 1 ≤ k ∧ k < (pySplitWs (truncVia (strip rp0))).length ∧
          split_start_ziel rp0
            = (some (candA (pySplitWs (truncVia (strip rp0))) k),
               some (candB (pySplitWs (truncVia (strip rp0))) k)) ∧
          (∀ j, 1 ≤ j → j < (pySplitWs (truncVia (strip rp0))).length →
            candScoreAt (pySplitWs (truncVia (strip rp0))) j
              ≤ candScoreAt (pySplitWs (truncVia (strip rp0))) k) ∧
          (∀ j, 1 ≤ j → j < k →
            candScoreAt (pySplitWs (truncVia (strip rp0))) j
              < candScoreAt (pySplitWs (truncVia (strip rp0))) k))
    ∧ parse_route (("Einfache Fahrt Berlin Hbf Hamburg Hbf").toList)
        = (some (("Einfache Fahrt").toList), some (("Berlin Hbf").toList),
           some (("Hamburg Hbf").toList)) := by
  constructor
  · intro rp0 hsep hlen
    have htok := pySplitWs_good (truncVia (strip rp0))
    obtain ⟨k, hk1, hk2, hfold, hmax, hstrict⟩ :=
      heurFold_argmax (pySplitWs (truncVia (strip rp0))) htok hlen
    refine ⟨k, hk1, hk2, ?_, hmax, hstrict⟩
    unfold split_start_ziel
    rw [splitCore_heur _ hsep]
    unfold splitCore.splitHeur
    rw [if_neg (by omega)]
    rw [hfold]
  · decide

/-- Closed instantiation of the general part of `c1_heuristic_argmax`
on the route text `"Berlin Hbf Hamburg Hbf"`. -/
theorem c1_heuristic_witness :
    ∃ k, 1 ≤ k ∧
      k < (pySplitWs (truncVia (strip (("Berlin Hbf Hamburg Hbf").toList)))).length ∧
      split_start_ziel (("Berlin Hbf Hamburg Hbf").toList)
        = (some (candA (pySplitWs (truncVia (strip (("Berlin Hbf Hamburg Hbf").toList)))) k),
           some (candB (pySplitWs (truncVia (strip (("Berlin Hbf Hamburg Hbf").toList)))) k)) ∧
      (∀ j, 1 ≤ j →
        j < (pySplitWs (truncVia (strip (("Berlin Hbf Hamburg Hbf").toList)))).length →
        candScoreAt (pySplitWs (truncVia (strip (("Berlin Hbf Hamburg Hbf").toList)))) j
          ≤ candScoreAt (pySplitWs (truncVia (strip (("Berlin Hbf Hamburg Hbf").toList)))) k) ∧
      (∀ j, 1 ≤ j → j < k →
        candScoreAt (pySplitWs (truncVia (strip (("Berlin Hbf Hamburg Hbf").toList)))) j
          < candScoreAt (pySplitWs (truncVia (strip (("Berlin Hbf Hamburg Hbf").toList)))) k) :=
  c1_heuristic_argmax.1 (("Berlin Hbf Hamburg Hbf").toList) (by decide) (by decide)

/-- C10: whenever the heuristic token split runs with at least two
tokens, every candidate has two non-empty sides, the first candidate
already beats the initial best score of −10, a best candidate is always
formed (the `best` accumulator is not `None`), and so the resolver
returns non-null, non-empty origin and destination — the final
`(route_part, None)` fallback of the heuristic branch is unreachable
under this precondition. -/
theorem c10_heuristic_nonnull :
    ∀ rp0 : Str,
      sepApplies (truncVia (strip rp0)) = false →
      2 ≤ (pySplitWs (truncVia (strip rp0))).length →
      ∃ a b : Str,
        split_start_ziel rp0 = (some a, some b) ∧ a ≠ [] ∧ b ≠ []
        ∧ (heurFold (pySplitWs (truncVia (strip rp0)))).1 ≠ none
        ∧ -10 < candScoreAt (pySplitWs (truncVia (strip rp0))) 1 := by
  intro rp0 hsep hlen
  have htok := pySplitWs_good (truncVia (strip rp0))
  obtain ⟨k, hk1, hk2, hfold, hmax, hstrict⟩ :=
    heurFold_argmax (pySplitWs (truncVia (strip rp0))) htok hlen
  refine ⟨candA (pySplitWs (truncVia (strip rp0))) k,
          candB (pySplitWs (truncVia (strip rp0))) k, ?_, ?_, ?_, ?_, ?_⟩
  · unfold split_start_ziel
    rw [splitCore_heur _ hsep]
    unfold splitCore.splitHeur
    rw [if_neg (by omega)]
    rw [hfold]
  · exact candA_ne _ htok k hk1 hk2
  · exact candB_ne _ htok k hk2
  · rw [hfold]
    simp
  · have := candScore_ge (candA (pySplitWs (truncVia (strip rp0))) 1)
      (candB (pySplitWs (truncVia (strip rp0))) 1)
    unfold candScoreAt
    omega

/-- Closed instantiation of `c10_heuristic_nonnull` on the route text
`"Mainz Hbf Ulm"`. -/
theorem c10_heuristic_witness :
    ∃ a b : Str,
      split_start_ziel (("Mainz Hbf Ulm").toList) = (some a, some b) ∧ a ≠ [] ∧ b ≠ []
      ∧ (heurFold (pySplitWs (truncVia (strip (("Mainz Hbf Ulm").toList))))).1 ≠ none
      ∧ -10 < candScoreAt (pySplitWs (truncVia (strip (("Mainz Hbf Ulm").toList)))) 1 :=
  c10_heuristic_nonnull (("Mainz Hbf Ulm").toList) (by decide) (by decide)

end DBTickets
